import Mathlib

/-!
Verification development for the employee scheduler (`scheduler_logic.py`).

The Python source is shallowly embedded below.  Conventions used throughout:

* wall-clock instants are minutes since midnight (`Nat`); the source keeps
  `datetime` objects anchored to 1970-01-01 and only ever uses hour/minute;
* Python strings stay `String`; position names and formatted employee names
  are the exact strings the source manipulates;
* Python dicts keyed by employee name become association lists
  (`List (String × _)`) with `dict.get`-style total lookup;
* `float('inf')` cost bounds become the two-point extension `ECost` of `Int`;
* fallible Python code (statements that can raise) is embedded in
  `Except PyErr`; in particular hashing a key that contains a `dict`
  raises `TypeError`, which is what the Phoenix memoization key does;
* the pandas `DataFrame`/`to_csv` rendering of a finished schedule is kept
  structurally (`ScheduleResult`): a run either produces the verbatim failure
  string or a note string plus the per-slot rows the source assembles just
  before calling `to_csv`.
-/

set_option maxRecDepth 40000

namespace Scheduler

/-- `FINAL_SCHEDULE_ROW_ORDER` from scheduler_logic.py lines 11-14. -/
def FINAL_SCHEDULE_ROW_ORDER : List String :=
  ["Handout", "Line Buster 1", "Conductor", "Line Buster 2", "Expo",
   "Drink Maker 1", "Drink Maker 2", "Line Buster 3", "Break", "ToffTL"]

/-- `WORK_POSITIONS` (line 15): the row order without Break and ToffTL. -/
def WORK_POSITIONS : List String :=
  FINAL_SCHEDULE_ROW_ORDER.filter (fun p => !(p == "Break" || p == "ToffTL"))

/-- `LINE_BUSTER_ROLES` (line 16). -/
def LINE_BUSTER_ROLES : List String :=
  ["Line Buster 1", "Line Buster 2", "Line Buster 3"]

/-- `TOP_TIER_ROLES` (line 17). -/
def TOP_TIER_ROLES : List String := ["Handout", "Line Buster 1", "Conductor"]

/-- Whitespace for Python `str.strip`; the inputs here only carry spaces. -/
def isSpaceChar (c : Char) : Bool := c == ' ' || c == '\t' || c == '\n' || c == '\r'

/-- Python `str.strip()` over the character list (the built-in
`String.trim` works on byte positions, which the kernel cannot reduce). -/
def pyStrip (s : String) : String :=
  ⟨((s.data.dropWhile isSpaceChar).reverse.dropWhile isSpaceChar).reverse⟩

/-- ASCII upcase of one character. -/
def upChar (c : Char) : Char :=
  if 'a' ≤ c && c ≤ 'z' then Char.ofNat (c.toNat - 32) else c

/-- Python `str.upper()` for the ASCII texts handled here. -/
def pyUpper (s : String) : String := ⟨s.data.map upChar⟩

/-- Python `str.split(sep)` over characters: `"a::b"` on `':'` gives
`["a", "", "b"]`, and the empty string gives `[""]`. -/
def splitOnChar (sep : Char) : List Char → List (List Char)
  | [] => [[]]
  | c :: rest =>
    let r := splitOnChar sep rest
    if c == sep then [] :: r
    else
      match r with
      | h :: t => (c :: h) :: t
      | [] => [[c]]

/-- `str.split(sep)` returning strings. -/
def pySplit (s : String) (sep : Char) : List String :=
  (splitOnChar sep s.data).map (fun cs => ⟨cs⟩)

/-- One decimal digit, or `none`. -/
def charDigit (c : Char) : Option Nat :=
  if '0' ≤ c && c ≤ '9' then some (c.toNat - 48) else none

/-- Decimal reading of a nonempty all-digit character list (`int(...)` on
the digit groups of a time text). -/
def digitsToNat (cs : List Char) : Option Nat :=
  if cs.isEmpty then none
  else cs.foldl (fun acc c =>
    match acc, charDigit c with
    | some a, some d => some (a * 10 + d)
    | _, _ => none) (some 0)

/-- Code-point lexicographic order on character lists (Python `str <`). -/
def charListLt : List Char → List Char → Bool
  | [], [] => false
  | [], _ :: _ => true
  | _ :: _, [] => false
  | a :: as, b :: bs => if a == b then charListLt as bs else decide (a.toNat < b.toNat)

/-- Python string `<`. -/
def pyStrLt (a b : String) : Bool := charListLt a.data b.data

/-- Parse `"H:MM"` or `"HH:MM"` into minutes after midnight, 24-hour
reading.  `none` when the text is not of that shape (digit groups, one
colon, minutes below 60, hours below 24). -/
def parseHM (s : String) : Option Nat :=
  match pySplit s ':' with
  | [h, m] =>
    match digitsToNat h.data, digitsToNat m.data with
    | some hv, some mv => if hv ≤ 23 && mv ≤ 59 then some (hv * 60 + mv) else none
    | _, _ => none
  | _ => none

/-- Parse one time string the way `pd.to_datetime` does for the wall-clock
formats this application feeds it: `"H:MM"`/`"HH:MM"` 24-hour, or
`"H:MM AM"`/`"H:MM PM"` 12-hour (case-insensitive suffix).  Any other text
makes `pd.to_datetime` raise `ValueError`, which `parse_time_input` catches
and turns into `NaT`; here that is `none`. -/
def parseClock (s : String) : Option Nat :=
  match pySplit s ' ' with
  | [t] => parseHM t
  | [t, suffix] =>
    let su := pyUpper suffix
    if su == "AM" || su == "PM" then
      match pySplit t ':' with
      | [h, m] =>
        match digitsToNat h.data, digitsToNat m.data with
        | some hv, some mv =>
          if 1 ≤ hv && hv ≤ 12 && mv ≤ 59 then
            some ((hv % 12) * 60 + mv + (if su == "PM" then 720 else 0))
          else none
        | _, _ => none
      | _ => none
    else none
  | _ => none

/-- `parse_time_input` (lines 19-22).  The input cell is `none` when the key
is absent (`pd.isna` is true); otherwise the raw string.  Blank or `N/A`
text, and text `pd.to_datetime` rejects, give `NaT` (`none` here). -/
def parse_time_input (time_val : Option String) : Option Nat :=
  match time_val with
  | none => none
  | some s =>
    let t := pyStrip s
    if pyUpper t == "N/A" || t == "" then none
    else parseClock t

/-- A decimal digit character. -/
def digitChar (d : Nat) : Char := Char.ofNat (48 + d)

/-- Decimal text of a number below 100 (the clock fields never exceed 59). -/
def natToStr2 (n : Nat) : String :=
  if n < 10 then ⟨[digitChar n]⟩ else ⟨[digitChar (n / 10), digitChar (n % 10)]⟩

/-- Pad a number below 100 to two digits, as `%M` does. -/
def pad2 (n : Nat) : String :=
  if n < 10 then ⟨['0', digitChar n]⟩ else natToStr2 n

/-- `curr.strftime('%I:%M %p').lstrip('0')` (line 38): 12-hour clock text
with the leading zero of `%I` stripped. -/
def fmtTime (minutes : Nat) : String :=
  let h24 := minutes / 60 % 24
  let mv := minutes % 60
  let h12 := if h24 % 12 == 0 then 12 else h24 % 12
  let ampm := if h24 < 12 then "AM" else "PM"
  natToStr2 h12 ++ ":" ++ pad2 mv ++ " " ++ ampm

/-- Join strings with a separator (`sep.join(...)`). -/
def pyJoin (sep : String) : List String → String
  | [] => ""
  | [x] => x
  | x :: rest => x ++ sep ++ pyJoin sep rest

/-- Python's `name.split(' ', 1)`: text before the first space, and the
remainder (possibly containing further spaces) when a space exists. -/
def splitFirstSpace (s : String) : String × Option String :=
  match pySplit s ' ' with
  | [] => ("", none)
  | [x] => (x, none)
  | x :: rest => (x, some (pyJoin " " rest))

/-- Display-name formatting (lines 28-29): first token, a space, the first
character of the remainder when present and nonempty, then a dot; the
result is stripped. -/
def pyFormatName (raw : String) : String :=
  let (first, restOpt) := splitFirstSpace raw
  let initial : String :=
    match restOpt with
    | some r =>
      match r.data with
      | [] => ""
      | c :: _ => ⟨[c]⟩
    | none => ""
  pyStrip (first ++ " " ++ initial ++ ".")

/-- One raw employee record, the dictionary the UI builds for each employee.
`none` fields model absent keys / `NaN` cells (`pd.isna` true). -/
structure EmployeeData where
  name : String := ""
  shiftStart : Option String := none
  shiftEnd : Option String := none
  brk : Option String := none
  toffTLStart : Option String := none
deriving DecidableEq, Repr

/-- One row of the long dataframe built by `preprocess_employee_data`:
a (slot, employee) pair with break/training flags. -/
structure SlotRow where
  time : String
  minutes : Nat
  name : String
  isOnBreak : Bool
  isOnToffTL : Bool
deriving DecidableEq, Repr

/-- The 30-minute stepping of `while curr < s_end` (lines 35-39): the
instants `curr, curr+30, …` below `s_end`, in closed form (their count is
the round-up of the remaining span to 30-minute steps). -/
def genSlots (curr s_end : Nat) : List Nat :=
  (List.range ((s_end - curr + 29) / 30)).map (fun k => curr + 30 * k)

/-- Slot rows contributed by one employee (loop body, lines 27-39).
`b_end`/`t_end` are the break start plus 30 minutes and the training start
plus 60 minutes; an employee with an unparseable shift start or end
contributes nothing. -/
def employeeRows (emp : EmployeeData) : List SlotRow :=
  let name := pyFormatName emp.name
  let s_start := parse_time_input emp.shiftStart
  let s_end := parse_time_input emp.shiftEnd
  let b_start := parse_time_input emp.brk
  let t_start := parse_time_input emp.toffTLStart
  match s_start, s_end with
  | some s0, some s1 =>
    (genSlots s0 s1).map (fun curr =>
      let on_break := match b_start with
        | some b => b ≤ curr && curr < b + 30
        | none => false
      let on_tofftl := match t_start with
        | some t => t ≤ curr && curr < t + 60
        | none => false
      { time := fmtTime curr, minutes := curr, name := name,
        isOnBreak := on_break, isOnToffTL := on_tofftl })
  | _, _ => []

/-- `preprocess_employee_data` (lines 24-40): the long dataframe as the
flat list of slot rows, in employee order then slot order. -/
def preprocess_employee_data (employee_data_list : List EmployeeData) : List SlotRow :=
  employee_data_list.flatMap employeeRows

/-- First occurrences of each element, keeping input order
(`pd.unique` on the Time column). -/
def firstOccurrences (l : List String) : List String :=
  l.foldl (fun acc t => if t ∈ acc then acc else acc ++ [t]) []

/-- Insertion sort by a `Nat` key. -/
def insertByKey (key : String → Nat) (x : String) : List String → List String
  | [] => [x]
  | y :: ys => if key x ≤ key y then x :: y :: ys else y :: insertByKey key x ys

/-- Sort by a `Nat` key (stable insertion sort, matching Python `sorted`). -/
def sortByKey (key : String → Nat) (l : List String) : List String :=
  l.foldr (insertByKey key) []

/-- The sort key used for slot strings:
`datetime.strptime(t, '%I:%M %p')` re-read as minutes.  Slot strings are
produced by `fmtTime`, on which `parseClock` is a left inverse. -/
def slotKey (t : String) : Nat := (parseClock t).getD 0

/-- `time_slots = sorted(df_long['Time'].unique(), key=...)` (line 183). -/
def timeSlotsOf (rows : List SlotRow) : List String :=
  sortByKey slotKey (firstOccurrences (rows.map (·.time)))

/-- `availability` (line 184): for a slot string, the employees neither on
break nor in training there, in dataframe (input) order.  A slot missing
from the grouped dict yields `[]`, matching `availability.get(slot, [])`. -/
def availabilityOf (rows : List SlotRow) (t : String) : List String :=
  (rows.filter (fun r => r.time == t && !r.isOnBreak && !r.isOnToffTL)).map (·.name)

/-- Python string sort (code-point lexicographic) for
`", ".join(sorted(list(set(xs))))`. -/
def insertStr (x : String) : List String → List String
  | [] => [x]
  | y :: ys => if pyStrLt x y then x :: y :: ys else y :: insertStr x ys

/-- `sorted(list(set(xs)))`: deduplicate, then sort lexicographically. -/
def sortedSet (xs : List String) : List String :=
  (firstOccurrences xs).foldr insertStr []

/-- Employees flagged on break at slot `t` (lines 197, 290, 343):
the raw column, before `sorted(set(...))`. -/
def breaksAt (rows : List SlotRow) (t : String) : List String :=
  (rows.filter (fun r => r.time == t && r.isOnBreak)).map (·.name)

/-- Employees flagged in training at slot `t`. -/
def toffTLAt (rows : List SlotRow) (t : String) : List String :=
  (rows.filter (fun r => r.time == t && r.isOnToffTL)).map (·.name)

/-- All ways to pick one element (in index order) together with the
remaining elements in their original relative order. -/
def selections : List String → List (String × List String)
  | [] => []
  | x :: xs => (x, xs) :: (selections xs).map (fun p => (p.1, x :: p.2))

/-- `itertools.permutations` body, structurally recursive on a fuel that the
wrapper sets to the list length (each selection removes one element, so the
fuel tracks the length exactly). -/
def pyPermutationsAux : Nat → List String → List (List String)
  | 0, _ => [[]]
  | n + 1, l =>
    (selections l).flatMap (fun p => (pyPermutationsAux n p.2).map (p.1 :: ·))

/-- `itertools.permutations`: all permutations of the input, lexicographic
in input positions (first element chosen by increasing index, then the
remainder permuted recursively). -/
def pyPermutations (l : List String) : List (List String) :=
  pyPermutationsAux l.length l

/-- A per-slot assignment: the `positions_to_fill`/permutation zip, in
position-priority order (`dict(zip(positions_to_fill, p))`). -/
abbrev Assignment := List (String × String)

/-- A schedule for the remaining slots: one `Assignment` per slot. -/
abbrev Sched := List Assignment

/-- Python's `float('inf')` cost bound next to exact integer costs. -/
inductive ECost where
  | inf
  | fin (c : Int)
deriving DecidableEq, Repr

/-- `c >= bound` for an integer cost against a possibly-infinite bound. -/
def ECost.intGe (c : Int) : ECost → Bool
  | .inf => false
  | .fin b => decide (b ≤ c)

/-- `c < bound` for an integer cost against a possibly-infinite bound. -/
def ECost.intLt (c : Int) : ECost → Bool
  | .inf => true
  | .fin b => decide (c < b)

/-- `bound - c`; infinity absorbs subtraction as in Python floats. -/
def ECost.subInt : ECost → Int → ECost
  | .inf, _ => .inf
  | .fin b, c => .fin (b - c)

/-- `a <= b` on possibly-infinite costs (`inf <= inf` is true in Python). -/
def ECost.le : ECost → ECost → Bool
  | .inf, .inf => true
  | .inf, .fin _ => false
  | .fin _, .inf => true
  | .fin a, .fin b => decide (a ≤ b)

/-- `a >= c` with a possibly-infinite left side and an integer right side. -/
def ECost.geInt : ECost → Int → Bool
  | .inf, _ => true
  | .fin a, c => decide (c ≤ a)

/-- `o == p` where `o` is Python's `state.get('last_pos')` (possibly `None`);
`None == p` is false. -/
def optEq (o : Option String) (p : String) : Bool :=
  match o with
  | some q => q == p
  | none => false

/-- `o in roles` where `o` may be `None`; `None in roles` is false. -/
def optMem (o : Option String) (roles : List String) : Bool :=
  match o with
  | some q => roles.contains q
  | none => false

/-- `dict[k] = v` on an insertion-ordered association list: an existing key
is updated in place, a new key is appended. -/
def dictSet {α : Type} : List (String × α) → String → α → List (String × α)
  | [], e, v => [(e, v)]
  | (k, w) :: rest, e, v =>
    if k == e then (e, v) :: rest else (k, w) :: dictSet rest e v

/-- Per-employee rolling state of the classic solver: `last_pos` and
`time_in_pos`, with `dict.get` defaults `None` and `0`. -/
structure CState where
  last_pos : Option String := none
  time_in_pos : Nat := 0
deriving DecidableEq, Repr

/-- The classic solver's `states` dict. -/
abbrev CStates := List (String × CState)

/-- `states.get(emp, {})` for the classic state shape. -/
def getC (m : CStates) (e : String) : CState := (m.lookup e).getD {}

/-- Per-employee rolling state of the Phoenix solvers (lines 150-159):
`last_pos`, `time_in_pos`, bounded `history`, and the `last_top_tier`
counter whose `dict.get` default is `100`. -/
structure PState where
  last_pos : Option String := none
  time_in_pos : Nat := 0
  history : List String := []
  last_top_tier : Nat := 100
deriving DecidableEq, Repr

/-- The Phoenix solvers' `prev_states` dict. -/
abbrev PStates := List (String × PState)

/-- `prev_states.get(emp, {})` for the Phoenix state shape. -/
def getP (m : PStates) (e : String) : PState := (m.lookup e).getD {}

/-- Last `n` elements of a list: the `[-n:]` slice. -/
def takeLast {α : Type} (n : Nat) (l : List α) : List α := l.drop (l.length - n)

/-- `calculate_assignment_cost` (lines 96-107).  `slotMin` is
`slot_obj.minute`.  The second source argument `emp` is unused there and
omitted here. -/
def calculate_assignment_cost (pos : String) (prev_state : PState) (slotMin : Nat) : Int :=
  let last_pos := prev_state.last_pos
  let cost1 : Int := if optEq last_pos pos && pos != "Conductor" then 10 else 0
  let history := prev_state.history
  let cost2 : Int :=
    if history.length ≥ 3 && history.get? (history.length - 2) == some pos then 5 else 0
  let cost3 : Int :=
    if LINE_BUSTER_ROLES.contains pos && optMem last_pos LINE_BUSTER_ROLES then 1000 else 0
  let cost4 : Int := if TOP_TIER_ROLES.contains pos then (prev_state.last_top_tier : Int) else 0
  let cost5 : Int :=
    if pos == "Conductor" && !optEq last_pos "Conductor" && slotMin ≠ 0 then 500 else 0
  cost1 + cost2 + cost3 - cost4 + cost5

/-- Slot cost of a whole assignment: the `sum(...)` of line 142/239. -/
def assignmentCost (assignments : Assignment) (states : PStates) (slotMin : Nat) : Int :=
  assignments.foldl (fun acc pe => acc + calculate_assignment_cost pe.1 (getP states pe.2) slotMin) 0

/-- The hard-rule pruning shared by `solve_phoenix_recursive`
(lines 133-140) and `solve_phoenix_limited_breaks_recursive`
(lines 230-237): a third consecutive Conductor slot, or a third consecutive
slot in any role outside Conductor and the Line Buster family.  Consecutive
Line Buster tenure is deliberately absent here (it is only the 1000 cost). -/
def phoenixHardViolation (assignments : Assignment) (states : PStates) : Bool :=
  assignments.any (fun pe =>
    let st := getP states pe.2
    (pe.1 == "Conductor" && optEq st.last_pos "Conductor" && st.time_in_pos ≥ 2) ||
    (!LINE_BUSTER_ROLES.contains pe.1 && pe.1 != "Conductor" &&
      optEq st.last_pos pe.1 && st.time_in_pos ≥ 2))

/-- The fresh per-employee record of the Phoenix state rewrite
(lines 150-159 / 247-256), built from the old `prev_states` entry. -/
def phoenixNewState (states : PStates) (pe : String × String) : PState :=
  let state := getP states pe.2
  let new_history := takeLast 4 (state.history ++ [pe.1])
  let time_in_top_tier :=
    if TOP_TIER_ROLES.contains pe.1 then 0 else state.last_top_tier + 1
  { last_pos := some pe.1,
    time_in_pos := if optEq state.last_pos pe.1 then state.time_in_pos + 1 else 1,
    history := new_history,
    last_top_tier := time_in_top_tier }

/-- The Phoenix state rewrite for one slot (lines 148-159 / 244-256):
`prev_states.copy()` then, per assignment, a fresh record built from the
old `prev_states` entry. -/
def updatePStates (states : PStates) (assignments : Assignment) : PStates :=
  assignments.foldl (fun m pe => dictSet m pe.2 (phoenixNewState states pe)) states

/-- The fresh per-employee record of the classic state rewrite
(lines 322-326 / 384-388). -/
def classicNewState (states : CStates) (pe : String × String) : CState :=
  let state := getC states pe.2
  { last_pos := some pe.1,
    time_in_pos := if optEq state.last_pos pe.1 then state.time_in_pos + 1 else 1 }

/-- The classic state rewrite for one slot (lines 320-326 / 382-388). -/
def updateCStates (states : CStates) (assignments : Assignment) : CStates :=
  assignments.foldl (fun m pe => dictSet m pe.2 (classicNewState states pe)) states

/-- `is_assignment_valid_backtracking_classic` (lines 301-308): the pure
conjunction the early-return loop computes.  `slotMin` is
`time_slot_obj.minute`. -/
def is_assignment_valid_backtracking_classic
    (assignments : Assignment) (slotMin : Nat) (prev_states : CStates) : Bool :=
  assignments.all (fun pe =>
    let st := getC prev_states pe.2
    !((LINE_BUSTER_ROLES.contains pe.1 && optMem st.last_pos LINE_BUSTER_ROLES) ||
      (pe.1 == "Conductor" && optEq st.last_pos "Conductor" && st.time_in_pos ≥ 2) ||
      (!LINE_BUSTER_ROLES.contains pe.1 && pe.1 != "Conductor" &&
        optEq st.last_pos pe.1 && st.time_in_pos ≥ 2)) &&
    !(pe.1 == "Conductor" && !optEq st.last_pos "Conductor" && slotMin ≠ 0))

/-- `slot_obj.minute` for a slot string: slot strings are produced by
`fmtTime`, which `parseClock` inverts, so the fallback `0` is never used on
the strings this program builds. -/
def slotMinuteOf (slot_str : String) : Nat := (parseClock slot_str).getD 0 % 60

/-- The permutation loop of `solve_classic_recursive` (lines 316-330):
first permutation that is valid and whose recursive continuation `cont`
(the search over the remaining slots) succeeds.  The Python code threads
one shared `schedule` list; since an entry for a slot is (re)written right
before each recursive attempt and the function returns on the first
success, the list the caller receives holds exactly the successful branch,
which is the `assignments :: sched` built here. -/
def tryPermsClassic (cont : CStates → Option Sched) (slotMin : Nat)
    (positions : List String) (states : CStates) : List (List String) → Option Sched
  | [] => none
  | p :: rest =>
    let assignments := positions.zip p
    if is_assignment_valid_backtracking_classic assignments slotMin states then
      match cont (updateCStates states assignments) with
      | some sched => some (assignments :: sched)
      | none => tryPermsClassic cont slotMin positions states rest
    else tryPermsClassic cont slotMin positions states rest

/-- `solve_classic_recursive` (lines 310-331), recursing over the remaining
slot list (the source indexes `time_slots` by `time_idx`; the suffix of
`time_slots` from `time_idx` is carried instead).  `none` is the
`(False, None)` outcome. -/
def solve_classic_recursive (availability : String → List String) :
    List String → CStates → Option Sched
  | [], _ => some []
  | slot_str :: restSlots, states =>
    let slotMin := slotMinuteOf slot_str
    let avail_emps := availability slot_str
    let positions_to_fill := WORK_POSITIONS.take avail_emps.length
    if positions_to_fill.length != avail_emps.length then none
    else
      tryPermsClassic (fun st => solve_classic_recursive availability restSlots st)
        slotMin positions_to_fill states (pyPermutations avail_emps)

/-- One output row of the final table, as assembled just before the pandas
transpose/`to_csv` step (lines 194-201, 287-295, 340-348): the slot label,
its competitive assignments, and the `sorted(list(set(...)))` Break and
ToffTL membership lists (the CSV cell is these joined with `", "`). -/
structure OutRow where
  time : String
  assignments : Assignment
  breakList : List String
  toffTLList : List String
deriving DecidableEq, Repr

/-- Result of one entry point: the verbatim failure string, or the note
text plus the rows handed to the tabular export. -/
inductive ScheduleResult where
  | failure (msg : String)
  | table (note : String) (rows : List OutRow)
deriving DecidableEq, Repr

/-- The row-assembly loop shared by all entry points. -/
def buildRows (rows : List SlotRow) (time_slots : List String)
    (finalAssignments : Sched) : List OutRow :=
  (time_slots.zip finalAssignments).map (fun ta =>
    { time := ta.1, assignments := ta.2,
      breakList := sortedSet (breaksAt rows ta.1),
      toffTLList := sortedSet (toffTLAt rows ta.1) })

/-- `create_schedule_backtracking_classic` (lines 333-349).  The store
open/close arguments are accepted and ignored, as in the source. -/
def create_schedule_backtracking_classic (_store_open _store_close : Option Nat)
    (employee_data_list : List EmployeeData) : ScheduleResult :=
  let df_long := preprocess_employee_data employee_data_list
  if df_long.isEmpty then .failure "No employee data to process."
  else
    let time_slots := timeSlotsOf df_long
    let availability := availabilityOf df_long
    match solve_classic_recursive availability time_slots [] with
    | none => .failure "Could not find a valid schedule that meets all hard rules."
    | some finalAssignments => .table "" (buildRows df_long time_slots finalAssignments)

/-- The validity-and-break-count loop of
`solve_classic_limited_breaks_recursive` (lines 364-378): `none` when some
assignment breaks a hard rule (the loop breaks early, so later
`current_breaks` increments are never observed — the count is unused in
that case); otherwise the number of off-hour fresh Conductor starts. -/
def classicLimitedScan (slotMin : Nat) (states : CStates) : Assignment → Nat → Option Nat
  | [], acc => some acc
  | pe :: rest, acc =>
    let st := getC states pe.2
    if (LINE_BUSTER_ROLES.contains pe.1 && optMem st.last_pos LINE_BUSTER_ROLES) ||
       (pe.1 == "Conductor" && optEq st.last_pos "Conductor" && st.time_in_pos ≥ 2) ||
       (!LINE_BUSTER_ROLES.contains pe.1 && pe.1 != "Conductor" &&
         optEq st.last_pos pe.1 && st.time_in_pos ≥ 2) then none
    else
      classicLimitedScan slotMin states rest
        (acc + if pe.1 == "Conductor" && !optEq st.last_pos "Conductor" && slotMin ≠ 0
               then 1 else 0)

/-- The permutation loop of `solve_classic_limited_breaks_recursive`
(lines 361-392): skip on hard violation or break-budget overflow, else
recurse; first success wins. -/
def tryPermsClassicLimited (cont : CStates → Nat → Option Sched) (slotMin : Nat)
    (positions : List String) (states : CStates) (cbc : Nat) :
    List (List String) → Option Sched
  | [] => none
  | p :: rest =>
    let assignments := positions.zip p
    match classicLimitedScan slotMin states assignments 0 with
    | none => tryPermsClassicLimited cont slotMin positions states cbc rest
    | some current_breaks =>
      if cbc + current_breaks > 2 then
        tryPermsClassicLimited cont slotMin positions states cbc rest
      else
        match cont (updateCStates states assignments) (cbc + current_breaks) with
        | some sched => some (assignments :: sched)
        | none => tryPermsClassicLimited cont slotMin positions states cbc rest

/-- `solve_classic_limited_breaks_recursive` (lines 354-394). -/
def solve_classic_limited_breaks_recursive (availability : String → List String) :
    List String → CStates → Nat → Option Sched
  | [], _, _ => some []
  | slot_str :: restSlots, states, conductor_breaks_count =>
    let slotMin := slotMinuteOf slot_str
    let avail_emps := availability slot_str
    let positions_to_fill := WORK_POSITIONS.take avail_emps.length
    if positions_to_fill.length != avail_emps.length then none
    else
      tryPermsClassicLimited
        (fun st c => solve_classic_limited_breaks_recursive availability restSlots st c)
        slotMin positions_to_fill states conductor_breaks_count (pyPermutations avail_emps)

/-- `create_schedule_classic_limited` (lines 396-417).  The note is printed
unconditionally once a schedule is found. -/
def create_schedule_classic_limited (_store_open _store_close : Option Nat)
    (employee_data_list : List EmployeeData) : ScheduleResult :=
  let df_long := preprocess_employee_data employee_data_list
  if df_long.isEmpty then .failure "No employee data to process."
  else
    let time_slots := timeSlotsOf df_long
    let availability := availabilityOf df_long
    match solve_classic_limited_breaks_recursive availability time_slots [] 0 with
    | none =>
      .failure "Could not find a valid schedule, even with up to 2 breaks of the Conductor start-time rule."
    | some finalAssignments =>
      .table "NOTE: The Conductor start time rule was broken to generate this schedule.\n\n"
        (buildRows df_long time_slots finalAssignments)

/-- `current_breaks` of the Phoenix limited solver (line 224): fresh
Conductor starts off the hour boundary in this assignment. -/
def countConductorBreaks (assignments : Assignment) (states : PStates) (slotMin : Nat) : Nat :=
  (assignments.filter (fun pe =>
    pe.1 == "Conductor" && !optEq (getP states pe.2).last_pos "Conductor" && slotMin ≠ 0)).length

/-- The branch-and-bound permutation loop of
`solve_phoenix_limited_breaks_recursive` (lines 220-268).  The accumulator
`acc` is `None`/`(cost, schedule)` for the best complete continuation found
so far; the effective `best_cost_at_level` is the initial bound until a
solution is found, then the accumulated cost.  The Python code threads one
shared `schedule` list, writing `schedule[time_idx]` only when a strictly
better complete continuation has just been found, so the list the caller
keeps for the best branch holds exactly `assignments :: future` built here. -/
def phoenixLimitedLoop (cont : PStates → ECost → Nat → Option (Int × Sched))
    (slotMin : Nat) (positions : List String) (states : PStates) (cbc : Nat)
    (bound0 : ECost) (perms : List (List String)) (acc : Option (Int × Sched)) :
    Option (Int × Sched) :=
  match perms with
  | [] => acc
  | p :: rest =>
    let best : ECost := match acc with | none => bound0 | some bs => .fin bs.1
    let assignments := positions.zip p
    let current_breaks := countConductorBreaks assignments states slotMin
    if cbc + current_breaks > 2 then
      phoenixLimitedLoop cont slotMin positions states cbc bound0 rest acc
    else if phoenixHardViolation assignments states then
      phoenixLimitedLoop cont slotMin positions states cbc bound0 rest acc
    else
      let current_cost := assignmentCost assignments states slotMin
      if ECost.intGe current_cost best then
        phoenixLimitedLoop cont slotMin positions states cbc bound0 rest acc
      else
        let new_states := updatePStates states assignments
        match cont new_states (best.subInt current_cost) (cbc + current_breaks) with
        | none => phoenixLimitedLoop cont slotMin positions states cbc bound0 rest acc
        | some fcs =>
          let total_cost := current_cost + fcs.1
          if ECost.intLt total_cost best then
            phoenixLimitedLoop cont slotMin positions states cbc bound0 rest
              (some (total_cost, assignments :: fcs.2))
          else
            phoenixLimitedLoop cont slotMin positions states cbc bound0 rest acc

/-- `solve_phoenix_limited_breaks_recursive` (lines 210-273).  The Python
pair `(cost, schedule)` is `(inf, None)` exactly when no continuation is
found, encoded as `none`; `some (c, s)` is a finite best cost with its
schedule. -/
def solve_phoenix_limited_breaks_recursive (availability : String → List String) :
    List String → PStates → ECost → Nat → Option (Int × Sched)
  | [], _, _, _ => some (0, [])
  | slot_str :: restSlots, prev_states, best_cost_so_far, conductor_breaks_count =>
    let slotMin := slotMinuteOf slot_str
    let avail_emps := availability slot_str
    let positions_to_fill := WORK_POSITIONS.take avail_emps.length
    if positions_to_fill.length != avail_emps.length then none
    else
      phoenixLimitedLoop
        (fun st b c => solve_phoenix_limited_breaks_recursive availability restSlots st b c)
        slotMin positions_to_fill prev_states conductor_breaks_count best_cost_so_far
        (pyPermutations avail_emps) none

/-- `create_schedule_phoenix_limited` (lines 275-295). -/
def create_schedule_phoenix_limited (_store_open _store_close : Option Nat)
    (employee_data_list : List EmployeeData) : ScheduleResult :=
  let df_long := preprocess_employee_data employee_data_list
  if df_long.isEmpty then .failure "No employee data to process."
  else
    let time_slots := timeSlotsOf df_long
    let availability := availabilityOf df_long
    match solve_phoenix_limited_breaks_recursive availability time_slots [] .inf 0 with
    | none =>
      .failure "Could not find a valid schedule, even with up to 2 breaks of the Conductor start-time rule."
    | some costSched =>
      .table "NOTE: The Conductor start time rule was broken to generate this schedule."
        (buildRows df_long time_slots costSched.2)

/-- Python runtime errors this program can raise. -/
inductive PyErr where
  | typeError
  | keyError
deriving DecidableEq, Repr

/-- The memoization key of `solve_phoenix_recursive` (line 113):
`(time_idx, tuple(sorted(prev_states.items())))`.  Sorting compares the
employee-name first components, which are unique, so the comparison never
touches the state dicts. -/
abbrev MemoKey := Nat × PStates

/-- The global `memo_cache` (line 109), as an association list. -/
abbrev Memo := List (MemoKey × (ECost × Option Sched))

/-- Insertion sort of state items by employee name (Python `sorted`). -/
def insertStateItem (x : String × PState) : PStates → PStates
  | [] => [x]
  | y :: ys => if pyStrLt x.1 y.1 then x :: y :: ys else y :: insertStateItem x ys

/-- `sorted(prev_states.items())`. -/
def sortStatesByName (m : PStates) : PStates := m.foldr insertStateItem []

/-- Cache lookup (`memo_cache.get`-style, once `in` succeeded). -/
def memoLookup (memo : Memo) (k : MemoKey) : Option (ECost × Option Sched) :=
  memo.lookup k

/-- `dict[k] = v` for the memo cache (key type differs from the
string-keyed `dictSet`). -/
def dictSetKey (m : Memo) (k : MemoKey) (v : ECost × Option Sched) : Memo :=
  match m with
  | [] => [(k, v)]
  | (k0, w) :: rest =>
    if k0 == k then (k, v) :: rest else (k0, w) :: dictSetKey rest k v

/-- Cache store `memo_cache[state_key] = result`. -/
def memoStore (memo : Memo) (k : MemoKey) (v : ECost × Option Sched) : Memo :=
  dictSetKey memo k v

/-- The branch-and-bound permutation loop of `solve_phoenix_recursive`
(lines 128-168), threading the memo cache through the recursive calls and
propagating any exception they raise.  Accumulator conventions are those of
`phoenixLimitedLoop`.  A cached continuation of finite cost but no schedule
cannot occur (the cache only ever stores `(inf, None)` or a finite cost
with its schedule); if it did, `resulting_schedule[time_idx] = assignments`
would be `None[...]` and raise `TypeError`, which the dead branch mirrors. -/
def phoenixLoop
    (cont : PStates → ECost → Memo → Except PyErr ((ECost × Option Sched) × Memo))
    (slotMin : Nat) (positions : List String) (states : PStates) (bound0 : ECost) :
    List (List String) → Option (Int × Sched) → Memo →
      Except PyErr (Option (Int × Sched) × Memo)
  | [], acc, memo => .ok (acc, memo)
  | p :: rest, acc, memo =>
    let best : ECost := match acc with | none => bound0 | some bs => .fin bs.1
    let assignments := positions.zip p
    if phoenixHardViolation assignments states then
      phoenixLoop cont slotMin positions states bound0 rest acc memo
    else
      let current_cost := assignmentCost assignments states slotMin
      if ECost.intGe current_cost best then
        phoenixLoop cont slotMin positions states bound0 rest acc memo
      else
        let new_states := updatePStates states assignments
        match cont new_states (best.subInt current_cost) memo with
        | .error e => .error e
        | .ok (fcm, memo1) =>
          match fcm with
          | (.inf, _) => phoenixLoop cont slotMin positions states bound0 rest acc memo1
          | (.fin fc, some fs) =>
            let total_cost := current_cost + fc
            if ECost.intLt total_cost best then
              phoenixLoop cont slotMin positions states bound0 rest
                (some (total_cost, assignments :: fs)) memo1
            else
              phoenixLoop cont slotMin positions states bound0 rest acc memo1
          | (.fin _, none) => .error .typeError

/-- `solve_phoenix_recursive` (lines 111-174).  The memoization key built
on line 113 is a tuple that contains the per-employee state dicts; Python
dicts are unhashable, so the very first cache probe `state_key in
memo_cache` raises `TypeError` whenever `prev_states` is nonempty.  Only
calls whose state dict is empty (no assignment made anywhere yet) survive
the probe. -/
def solve_phoenix_recursive (availability : String → List String) :
    List String → Nat → PStates → ECost → Memo →
      Except PyErr ((ECost × Option Sched) × Memo)
  | remaining, time_idx, prev_states, best_cost_so_far, memo =>
    let state_key : MemoKey := (time_idx, sortStatesByName prev_states)
    if state_key.2 != [] then .error .typeError
    else
      let cacheHit : Option (ECost × Option Sched) :=
        match memoLookup memo state_key with
        | some cached => if ECost.le cached.1 best_cost_so_far then some cached else none
        | none => none
      match cacheHit with
      | some cached => .ok (cached, memo)
      | none =>
        match remaining with
        | [] => .ok ((.fin 0, some []), memo)
        | slot_str :: restSlots =>
          let slotMin := slotMinuteOf slot_str
          let avail_emps := availability slot_str
          let positions_to_fill := WORK_POSITIONS.take avail_emps.length
          if positions_to_fill.length != avail_emps.length then .ok ((.inf, none), memo)
          else
            match
              phoenixLoop
                (fun st b m =>
                  solve_phoenix_recursive availability restSlots (time_idx + 1) st b m)
                slotMin positions_to_fill prev_states best_cost_so_far
                (pyPermutations avail_emps) none memo
            with
            | .error e => .error e
            | .ok (acc, memo1) =>
              let result : ECost × Option Sched :=
                match acc with
                | none => (.inf, none)
                | some bs => (.fin bs.1, some bs.2)
              if state_key.2 != [] then .error .typeError
              else .ok (result, memoStore memo1 state_key result)

/-- `create_schedule_phoenix` (lines 176-202).  `memo0` is the value the
process-global `memo_cache` holds when the call starts; the function
reassigns the global to a fresh empty dict before solving (lines 178-179),
so `memo0` is discarded.  The cache value left behind on an exception is
not returned: every entry point reinitialises the global before reading
it, so that value is never observed. -/
def create_schedule_phoenix (memo0 : Memo) (_store_open _store_close : Option Nat)
    (employee_data_list : List EmployeeData) : Except PyErr ScheduleResult :=
  let memo_cache : Memo := []
  let _ := memo0
  let df_long := preprocess_employee_data employee_data_list
  if df_long.isEmpty then .ok (.failure "No employee data to process.")
  else
    let time_slots := timeSlotsOf df_long
    let availability := availabilityOf df_long
    match solve_phoenix_recursive availability time_slots 0 [] .inf memo_cache with
    | .error e => .error e
    | .ok ((total_cost, final), _) =>
      match final with
      | none => .ok (.failure "Could not find a valid schedule that meets all hard rules.")
      | some finalAssignments =>
        let note :=
          if total_cost.geInt 1000 then
            "NOTE: A valid schedule was only found by relaxing the consecutive Line Buster rule.\n\n"
          else if total_cost.geInt 500 then
            "NOTE: A valid schedule was only found by relaxing the Conductor start time rule.\n\n"
          else ""
        .ok (.table note (buildRows df_long time_slots finalAssignments))

/-- Modelled from the spec (for the refinement claim): the naive exhaustive
reference the claim compares `create_schedule_phoenix` against — over each
slot, all permutations that pass the hard-rule check, no memoization, no
bound pruning; the minimum-cost complete schedule wins (first found among
equals), and `none` exactly when no permutation at the current slot leads
to a complete legal schedule. -/
def naiveExhaustivePhoenixRec (availability : String → List String) :
    List String → PStates → Option (Int × Sched)
  | [], _ => some (0, [])
  | slot_str :: restSlots, states =>
    let slotMin := slotMinuteOf slot_str
    let avail_emps := availability slot_str
    let positions_to_fill := WORK_POSITIONS.take avail_emps.length
    if positions_to_fill.length != avail_emps.length then none
    else
      (pyPermutations avail_emps).foldl (fun acc p =>
        let assignments := positions_to_fill.zip p
        if phoenixHardViolation assignments states then acc
        else
          let c := assignmentCost assignments states slotMin
          match naiveExhaustivePhoenixRec availability restSlots
              (updatePStates states assignments) with
          | none => acc
          | some fcs =>
            let total := c + fcs.1
            match acc with
            | none => some (total, assignments :: fcs.2)
            | some best => if total < best.1 then some (total, assignments :: fcs.2) else acc)
        none

/-- Modelled from the spec (for the refinement claim): the naive reference
search run over the same preprocessed input as `create_schedule_phoenix`,
returning the minimum total cost and schedule, or `none` for the failure
signal. -/
def naiveExhaustivePhoenix (employee_data_list : List EmployeeData) :
    Option (Int × Sched) :=
  let df_long := preprocess_employee_data employee_data_list
  if df_long.isEmpty then none
  else
    naiveExhaustivePhoenixRec (availabilityOf df_long) (timeSlotsOf df_long) []

/-- Mutable state of the heuristic scheduler's two passes (lines 50-86):
per-slot availability (Python sets, modelled as the grouped name lists),
chosen per-slot Conductor and position cells, `employee_last_worked`
(default `-100`), and the fill pass's `employee_states`. -/
structure HeurState where
  avail : List (String × List String)
  conductor : List (String × String)
  filled : List (String × Assignment)
  last_worked : List (String × Int)
  states : CStates
deriving Repr

/-- `availability.get(slot, set())` for the heuristic, as a name list. -/
def heurAvail (st : HeurState) (t : String) : List String := (st.avail.lookup t).getD []

/-- `set.remove` (first occurrence; the sets hold distinct names). -/
def heurRemove (st : HeurState) (t : String) (e : String) : HeurState :=
  { st with avail := st.avail.map (fun kv => if kv.1 == t then (kv.1, kv.2.erase e) else kv) }

/-- The Conductor pre-pass body for one slot index (lines 52-64): on an
hour boundary with a following slot, the employee available in both slots
with the largest idle time (ties to the lexicographically first, scanning
in sorted order with a strict improvement test) takes Conductor for both. -/
def heurConductorStep (time_slots : List String) (st : HeurState) (i : Nat) : HeurState :=
  let slot_str := time_slots.getD i ""
  if slotMinuteOf slot_str != 0 || i + 1 ≥ time_slots.length then st
  else
    let next_slot := time_slots.getD (i + 1) ""
    let possible := sortedSet ((heurAvail st slot_str).filter
      (fun e => (heurAvail st next_slot).contains e))
    let best := possible.foldl (fun acc e =>
      let idle : Int := (i : Int) - ((st.last_worked.lookup e).getD (-100))
      match acc with
      | none => if idle > -1 then some (e, idle) else none
      | some be => if idle > be.2 then some (e, idle) else acc) none
    match best with
    | none => st
    | some be =>
      let st1 := { st with
        conductor := dictSet (dictSet st.conductor slot_str be.1) next_slot be.1,
        last_worked := dictSet st.last_worked be.1 ((i : Int) + 1) }
      heurRemove (heurRemove st1 slot_str be.1) next_slot be.1

/-- The fill-pass body for one position in one slot (lines 70-86): the
first employee in sorted availability order not blocked by the
line-buster/consecutive-tenure screen takes the position. -/
def heurFillPos (slot_str : String) (st : HeurState) (pos : String) : HeurState :=
  let alreadyConductor := pos == "Conductor" && (st.conductor.lookup slot_str).isSome
  if alreadyConductor then st
  else
    let best := (sortedSet (heurAvail st slot_str)).find? (fun e =>
      let s := getC st.states e
      !((LINE_BUSTER_ROLES.contains pos && optMem s.last_pos LINE_BUSTER_ROLES) ||
        (!LINE_BUSTER_ROLES.contains pos && optEq s.last_pos pos && s.time_in_pos ≥ 2)))
    match best with
    | none => st
    | some e =>
      let s := getC st.states e
      let st1 := { st with
        filled := dictSet st.filled slot_str
          (dictSet ((st.filled.lookup slot_str).getD []) pos e),
        states := dictSet st.states e
          { last_pos := some pos,
            time_in_pos := if optEq s.last_pos pos then s.time_in_pos + 1 else 1 } }
      heurRemove st1 slot_str e

/-- The fill pass for one slot (lines 66-86): Break/ToffTL membership is
re-read from the long dataframe at render time; each work position not
already holding the pre-assigned Conductor is filled in catalogue order. -/
def heurFillSlot (st : HeurState) (slot_str : String) : HeurState :=
  WORK_POSITIONS.foldl (heurFillPos slot_str) st

/-- `create_schedule_heuristic` (lines 45-91): Conductor-first pre-pass on
hour boundaries, then a greedy fill in sorted-name order, then the same
tabular assembly as the other entry points (the Conductor cell from either
pass, remaining cells from the fill pass). -/
def create_schedule_heuristic (_store_open _store_close : Option Nat)
    (employee_data_list : List EmployeeData) : ScheduleResult :=
  let df_long := preprocess_employee_data employee_data_list
  if df_long.isEmpty then .failure "No employee data to process."
  else
    let time_slots := timeSlotsOf df_long
    let st0 : HeurState :=
      { avail := time_slots.map (fun t => (t, availabilityOf df_long t)),
        conductor := [], filled := [],
        last_worked := [], states := [] }
    let st1 := (List.range time_slots.length).foldl (heurConductorStep time_slots) st0
    let st2 := time_slots.foldl heurFillSlot st1
    let rows := time_slots.map (fun t =>
      let base := (st2.filled.lookup t).getD []
      let withCond := match st2.conductor.lookup t with
        | some c => dictSet base "Conductor" c
        | none => base
      { time := t, assignments := withCond,
        breakList := sortedSet (breaksAt df_long t),
        toffTLList := sortedSet (toffTLAt df_long t) : OutRow })
    .table "" rows

/-- `pat` is a leading piece of `text`. -/
def charsStartWith : List Char → List Char → Bool
  | [], _ => true
  | _ :: _, [] => false
  | p :: ps, c :: cs => p == c && charsStartWith ps cs

/-- Python `sub in s` (substring containment). -/
def strHasSubAux (pat : List Char) : List Char → Bool
  | [] => charsStartWith pat []
  | c :: rest => charsStartWith pat (c :: rest) || strHasSubAux pat rest

/-- Python `sub in s`. -/
def strHasSub (s sub : String) : Bool := strHasSubAux sub.data s.data

/-- The schedule dataframe the diversification pass works on, as parsed
back from the phoenix CSV (line 457): row labels (`Position` index),
column labels (slot strings), and the row-major cell grid where the empty
string stands for a NaN cell (`pd.read_csv` turns empty cells into NaN and
the pass skips any cell that is not a nonempty string). -/
structure Df where
  index : List String
  columns : List String
  cells : List (List String)
deriving DecidableEq, Repr

/-- `df.loc[pos, column i]`: label-based row access (the labels are the ten
distinct position names, so the first match is the row). -/
def dfCell (df : Df) (pos : String) (colIdx : Nat) : String :=
  ((df.cells.getD (df.index.indexOf pos) []).getD colIdx "")

/-- Write one cell through its row label. -/
def dfSetCell (df : Df) (pos : String) (colIdx : Nat) (v : String) : Df :=
  let j := df.index.indexOf pos
  let row := (df.cells.getD j []).set colIdx v
  { df with cells := df.cells.set j row }

/-- One entry of `employee_schedule_map`: `{'time_idx': _, 'pos': _}` (the
`time_str` field the source also stores is never read). -/
abbrev MapEntry := Nat × String

/-- The mutable `employee_schedule_map` (lines 460-466). -/
abbrev SwapMap := List (String × List MapEntry)

/-- `employee_schedule_map[emp]`; every looked-up name comes from a
nonempty cell, which is exactly how the key set is built, so the default is
never taken on the lookups the pass performs. -/
def mapGet (m : SwapMap) (e : String) : List MapEntry := (m.lookup e).getD []

/-- All nonempty cells in column-major order as
`(time_idx, pos, emp)` triples — the iteration order of lines 462-466. -/
def colMajorCells (df : Df) : List (Nat × String × String) :=
  (List.range df.columns.length).flatMap (fun i =>
    (List.range df.index.length).filterMap (fun j =>
      match df.index.get? j with
      | some pos =>
        let emp := (df.cells.getD j []).getD i ""
        if emp != "" then some (i, pos, emp) else none
      | none => none))

/-- The key set `pd.unique(df.values.ravel())` restricted to nonempty
strings, in first-occurrence row-major order (line 460). -/
def dfKeys (df : Df) : List String :=
  firstOccurrences ((df.cells.flatten).filter (fun c => c != ""))

/-- Build `employee_schedule_map` from the dataframe (lines 460-466):
for each key, its nonempty cells in column-major order. -/
def buildMap (df : Df) : SwapMap :=
  (dfKeys df).map (fun e =>
    (e, (colMajorCells df).filterMap (fun c =>
      if c.2.2 == e then some (c.1, c.2.1) else none)))

/-- `check_employee_validity` inside `is_swap_safe` (lines 424-446):
backward, a Line Buster may not repeat the same Line Buster position, and
any other non-Conductor position may not repeat if it was also held the
time before that; forward, only a same-position Line Buster repeat is
rejected.  Conductor rules are never consulted. -/
def check_employee_validity (df : Df) (m : SwapMap) (emp_name new_pos : String)
    (current_time_idx : Nat) : Bool :=
  let entries := mapGet m emp_name
  let backOk :=
    if current_time_idx > 0 then
      match (entries.filter (fun it => it.1 < current_time_idx)).getLast? with
      | some prev =>
        let last_pos := prev.2
        if LINE_BUSTER_ROLES.contains new_pos && new_pos == last_pos then false
        else if !LINE_BUSTER_ROLES.contains new_pos && new_pos != "Conductor" &&
            new_pos == last_pos then
          if current_time_idx > 1 then
            match (entries.filter (fun it => it.1 < prev.1)).getLast? with
            | some pp => !(pp.2 == new_pos)
            | none => true
          else true
        else true
      | none => true
    else true
  let fwdOk :=
    if current_time_idx < df.columns.length - 1 then
      match (entries.filter (fun it => it.1 > current_time_idx)).head? with
      | some nxt => !(LINE_BUSTER_ROLES.contains nxt.2 && nxt.2 == new_pos)
      | none => true
    else true
  backOk && fwdOk

/-- `is_swap_safe` (lines 422-448). -/
def is_swap_safe (df : Df) (time_idx : Nat) (emp1_name emp2_name pos1 pos2 : String)
    (employee_schedule_map : SwapMap) : Bool :=
  check_employee_validity df employee_schedule_map emp1_name pos2 time_idx &&
  check_employee_validity df employee_schedule_map emp2_name pos1 time_idx

/-- The repetitiveness screen (lines 479-493): the employee resumed the
position after a gap (last history entry is this position and the entry
before it is more than one slot back), or the position occurs more than
once among the last three history entries up to this slot. -/
def isRepetitive (m : SwapMap) (emp_name current_pos : String) (time_idx : Nat) : Bool :=
  let emp_history := (mapGet m emp_name).filter (fun it => it.1 ≤ time_idx)
  let condA :=
    if emp_history.length ≥ 2 &&
        ((emp_history.getLast?).map (fun it => it.2) == some current_pos) then
      match emp_history.get? (emp_history.length - 2) with
      | some prevIt => decide ((time_idx : Int) - (prevIt.1 : Int) > 1)
      | none => false
    else false
  let condB :=
    ((takeLast 3 emp_history).map (fun it => it.2)).count current_pos > 1
  condA || condB

/-- One performed swap: slot index, the repetitive employee's position and
name, and the partner's position and name. -/
structure SwapRec where
  time_idx : Nat
  pos1 : String
  emp1 : String
  pos2 : String
  emp2 : String
deriving DecidableEq, Repr

/-- One full scan of the sweep (lines 471-515): the first
(slot, repetitive position, partner position) triple — columns outermost,
then rows skipping Break/ToffTL/Conductor for the repetitive seat, then
partner rows skipping the same seat and Break/ToffTL — whose swap is safe.
The source's triple `break` exits all loops right after the first such
swap, so one pass of `for _ in range(5)` performs at most this one swap. -/
def scanSwap (df : Df) (m : SwapMap) : Option SwapRec :=
  (List.range df.columns.length).findSome? (fun time_idx =>
    df.index.findSome? (fun current_pos =>
      if current_pos == "Break" || current_pos == "ToffTL" || current_pos == "Conductor" then
        none
      else
        let emp_name := dfCell df current_pos time_idx
        if emp_name == "" then none
        else if isRepetitive m emp_name current_pos time_idx then
          df.index.findSome? (fun other_pos =>
            if other_pos == current_pos || other_pos == "Break" || other_pos == "ToffTL" then
              none
            else
              let other_emp := dfCell df other_pos time_idx
              if other_emp != "" && other_emp != emp_name then
                if is_swap_safe df time_idx emp_name other_emp current_pos other_pos m then
                  some ⟨time_idx, current_pos, emp_name, other_pos, other_emp⟩
                else none
              else none)
        else none))

/-- Update `employee_schedule_map` entries of one employee at one slot
(lines 506-509). -/
def mapUpdatePos (m : SwapMap) (e : String) (t : Nat) (newPos : String) : SwapMap :=
  m.map (fun kv =>
    if kv.1 == e then
      (kv.1, kv.2.map (fun it => if it.1 == t then (it.1, newPos) else it))
    else kv)

/-- Perform one found swap on the grid and the map (lines 503-509). -/
def applySwap (df : Df) (m : SwapMap) (s : SwapRec) : Df × SwapMap :=
  let df1 := dfSetCell df s.pos1 s.time_idx s.emp2
  let df2 := dfSetCell df1 s.pos2 s.time_idx s.emp1
  let m1 := mapUpdatePos m s.emp1 s.time_idx s.pos2
  let m2 := mapUpdatePos m1 s.emp2 s.time_idx s.pos1
  (df2, m2)

/-- One iteration of `for _ in range(5)`: scan; if a swap was found,
apply it and count it. -/
def sweepStep : Df × SwapMap × Nat → Df × SwapMap × Nat
  | (df, m, n) =>
    match scanSwap df m with
    | none => (df, m, n)
    | some s =>
      let dm := applySwap df m s
      (dm.1, dm.2, n + 1)

/-- The whole diversification pass (lines 459-515): build the map once,
then five sweep iterations; returns the final grid and `swaps_made`. -/
def runDiversePass (df : Df) : Df × Nat :=
  let s := sweepStep (sweepStep (sweepStep (sweepStep (sweepStep (df, buildMap df, 0)))))
  (s.1, s.2.2)

/-- The grid the pass receives: `pd.read_csv` of the phoenix CSV with
`Position` as index — rows in `FINAL_SCHEDULE_ROW_ORDER`, columns the slot
labels, Break/ToffTL cells the `", "`-joined membership lists, missing
competitive cells empty. -/
def dfOfTable (rows : List OutRow) : Df :=
  { index := FINAL_SCHEDULE_ROW_ORDER,
    columns := rows.map (fun r => r.time),
    cells := FINAL_SCHEDULE_ROW_ORDER.map (fun pos =>
      rows.map (fun r =>
        if pos == "Break" then pyJoin ", " r.breakList
        else if pos == "ToffTL" then pyJoin ", " r.toffTLList
        else match r.assignments.lookup pos with
          | some e => e
          | none => "")) }

/-- Result of `create_schedule_phoenix_diverse`: the failure text passed
through, or the final note plus the swept grid. -/
inductive DiverseResult where
  | failure (msg : String)
  | table (note : String) (df : Df)
deriving DecidableEq, Repr

/-- `create_schedule_phoenix_diverse` (lines 450-520).  The inner phoenix
call's exception propagates.  When phoenix returns the no-data failure
string with a nonempty employee list, the guard on line 452 does not match
(`"Could not find"` is not a substring and the list is truthy), and
`pd.read_csv` of that one-line text yields a frame with no `Position`
column, so `set_index('Position')` raises `KeyError` (line 457).  On a
real table, the note is the text before the blank line (line 455), the
pass runs, and a swap count is appended to the note when positive. -/
def create_schedule_phoenix_diverse (memo0 : Memo) (store_open store_close : Option Nat)
    (employee_data_list : List EmployeeData) : Except PyErr DiverseResult :=
  match create_schedule_phoenix memo0 store_open store_close employee_data_list with
  | .error e => .error e
  | .ok initial =>
    let isFail : Bool :=
      match initial with
      | .failure msg => strHasSub msg "Could not find"
      | .table _ _ => false
    if isFail || employee_data_list.isEmpty then
      .ok (match initial with
        | .failure m => .failure m
        | .table n r => .table n (dfOfTable r))
    else
      match initial with
      | .failure _msg => .error .keyError
      | .table note rows =>
        let noteBase :=
          if strHasSub note "NOTE:" then
            String.mk (note.data.take (note.data.length - 2))
          else ""
        let df := dfOfTable rows
        let dn := runDiversePass df
        let note1 :=
          if dn.2 > 0 then noteBase ++ natToStr2 dn.2 ++ " diversity swap(s) made. "
          else noteBase
        .ok (.table (pyStrip note1) dn.1)

/-! ### Schedule-level predicates and concrete inputs used by the claims -/

/-- The assignment of slot `i` in a finished table (`[]` past the end). -/
def rowAssignments (rows : List OutRow) (i : Nat) : Assignment :=
  ((rows.getD i { time := "", assignments := [], breakList := [], toffTLList := [] }).assignments)

/-- `e` holds some Line Buster seat in this slot. -/
def inLB (a : Assignment) (e : String) : Bool :=
  a.any (fun pe => LINE_BUSTER_ROLES.contains pe.1 && pe.2 == e)

/-- `e` holds seat `p` in this slot. -/
def holdsSeat (a : Assignment) (p e : String) : Bool := a.contains (p, e)

/-- Some employee holds Line Buster seats in two consecutive slots of the
table. -/
def hasConsecutiveLB (rows : List OutRow) : Bool :=
  (List.range rows.length).any (fun i =>
    (rowAssignments rows i).any (fun pe =>
      LINE_BUSTER_ROLES.contains pe.1 && inLB (rowAssignments rows (i + 1)) pe.2))

/-- The formatted display names of an input roster. -/
def formattedNames (employee_data_list : List EmployeeData) : List String :=
  employee_data_list.map (fun d => pyFormatName d.name)

/-- Acceptance relation of the classic solver: the schedules
`solve_classic_recursive` can return.  Each slot takes a permutation of its
availability, zipped against the truncated catalogue, that passes the
validity screen; the state is rewritten and the rest follows. -/
inductive ClassicAccept (availability : String → List String) :
    List String → CStates → Sched → Prop
  | nil (st : CStates) : ClassicAccept availability [] st []
  | cons (slot : String) (rest : List String) (st : CStates)
      (p : List String) (s' : Sched) :
      p ∈ pyPermutations (availability slot) →
      (WORK_POSITIONS.take (availability slot).length).length = (availability slot).length →
      is_assignment_valid_backtracking_classic
        ((WORK_POSITIONS.take (availability slot).length).zip p) (slotMinuteOf slot) st = true →
      ClassicAccept availability rest
        (updateCStates st ((WORK_POSITIONS.take (availability slot).length).zip p)) s' →
      ClassicAccept availability (slot :: rest) st
        (((WORK_POSITIONS.take (availability slot).length).zip p) :: s')

/-- Acceptance relation of the classic limited solver: same shape, with the
hard screen of `classicLimitedScan` (the break budget does not matter for
the tenure invariants and is existentially forgotten). -/
inductive ClassicLimitedAccept (availability : String → List String) :
    List String → CStates → Sched → Prop
  | nil (st : CStates) : ClassicLimitedAccept availability [] st []
  | cons (slot : String) (rest : List String) (st : CStates)
      (p : List String) (s' : Sched) (k : Nat) :
      p ∈ pyPermutations (availability slot) →
      (WORK_POSITIONS.take (availability slot).length).length = (availability slot).length →
      classicLimitedScan (slotMinuteOf slot) st
        ((WORK_POSITIONS.take (availability slot).length).zip p) 0 = some k →
      ClassicLimitedAccept availability rest
        (updateCStates st ((WORK_POSITIONS.take (availability slot).length).zip p)) s' →
      ClassicLimitedAccept availability (slot :: rest) st
        (((WORK_POSITIONS.take (availability slot).length).zip p) :: s')

/-- Acceptance relation of the Phoenix limited solver: any schedule its
branch-and-bound loop can keep — each slot a hard-legal permutation
assignment over the Phoenix state. -/
inductive PhoenixLimitedAccept (availability : String → List String) :
    List String → PStates → Sched → Prop
  | nil (st : PStates) : PhoenixLimitedAccept availability [] st []
  | cons (slot : String) (rest : List String) (st : PStates)
      (p : List String) (s' : Sched) :
      p ∈ pyPermutations (availability slot) →
      (WORK_POSITIONS.take (availability slot).length).length = (availability slot).length →
      phoenixHardViolation ((WORK_POSITIONS.take (availability slot).length).zip p) st = false →
      PhoenixLimitedAccept availability rest
        (updatePStates st ((WORK_POSITIONS.take (availability slot).length).zip p)) s' →
      PhoenixLimitedAccept availability (slot :: rest) st
        (((WORK_POSITIONS.take (availability slot).length).zip p) :: s')

/-- The three tenure screens shared by the classic solvers, as one boolean:
no Line Buster family repeat, no third consecutive Conductor slot, no third
consecutive slot in any other role. -/
def tenureOkC (a : Assignment) (st : CStates) : Bool :=
  a.all (fun pe =>
    let s := getC st pe.2
    !((LINE_BUSTER_ROLES.contains pe.1 && optMem s.last_pos LINE_BUSTER_ROLES) ||
      (pe.1 == "Conductor" && optEq s.last_pos "Conductor" && s.time_in_pos ≥ 2) ||
      (!LINE_BUSTER_ROLES.contains pe.1 && pe.1 != "Conductor" &&
        optEq s.last_pos pe.1 && s.time_in_pos ≥ 2)))

/-- A schedule each of whose slots passes the classic tenure screen against
the rolling state, with duplicate-free employees per slot. -/
inductive TChainC : CStates → Sched → Prop
  | nil (st : CStates) : TChainC st []
  | cons (st : CStates) (a : Assignment) (rest : Sched) :
      tenureOkC a st = true → (a.map Prod.snd).Nodup →
      TChainC (updateCStates st a) rest → TChainC st (a :: rest)

/-- A schedule each of whose slots passes the Phoenix hard screen against
the rolling state, with duplicate-free employees per slot. -/
inductive TChainP : PStates → Sched → Prop
  | nil (st : PStates) : TChainP st []
  | cons (st : PStates) (a : Assignment) (rest : Sched) :
      phoenixHardViolation a st = false → (a.map Prod.snd).Nodup →
      TChainP (updatePStates st a) rest → TChainP st (a :: rest)

/-- A grid is well formed for the sweep when every nonempty name sits in at
most one cell of any column (so the incremental map update after a swap
agrees with rebuilding the map from the swapped grid) and the shape is
rectangular with distinct row labels. -/
def WFdf (df : Df) : Bool :=
  df.cells.length == df.index.length &&
  df.cells.all (fun row => row.length == df.columns.length) &&
  (dfKeys df).all (fun e =>
    (List.range df.columns.length).all (fun i =>
      ((List.range df.index.length).filter
        (fun j => (df.cells.getD j []).getD i "" == e)).length ≤ 1)) &&
  df.index.Nodup

/-! ### Concrete inputs the claims are settled on -/

/-- C2/C10: one employee, 9:00–10:00 AM. -/
def aliceOnly : List EmployeeData :=
  [{ name := "Alice", shiftStart := some "9:00 AM", shiftEnd := some "10:00 AM" }]

/-- C3: two employees, 9:00–10:00 AM. -/
def pairInput : List EmployeeData :=
  [{ name := "Alice", shiftStart := some "9:00 AM", shiftEnd := some "10:00 AM" },
   { name := "Bob", shiftStart := some "9:00 AM", shiftEnd := some "10:00 AM" }]

/-- C4's spec scenario: one employee 9:00–13:00, store 8:00–23:00. -/
def soloScenario : List EmployeeData :=
  [{ name := "Solo Worker", shiftStart := some "9:00 AM", shiftEnd := some "1:00 PM" }]

/-- C8's scenario: two overlapping full-day shifts, one break at 1:00 PM. -/
def breakScenario : List EmployeeData :=
  [{ name := "Alice Smith", shiftStart := some "9:00 AM", shiftEnd := some "9:00 PM" },
   { name := "Bob Jones", shiftStart := some "9:00 AM", shiftEnd := some "9:00 PM",
     brk := some "1:00 PM" }]

/-- C5: one employee whose break and training both cover the only slot. -/
def overlapInput : List EmployeeData :=
  [{ name := "Eve", shiftStart := some "9:00 AM", shiftEnd := some "9:30 AM",
     brk := some "9:00 AM", toffTLStart := some "9:00 AM" }]

/-- C9: a nonempty roster with no parseable shift start. -/
def ghostInput : List EmployeeData :=
  [{ name := "Ghost", shiftStart := some "garbage", shiftEnd := some "5:00 PM" }]

/-- C1: two records sharing the display name `A .` next to a third
employee, 2:00–3:00 PM. -/
def dupNameInput : List EmployeeData :=
  [{ name := "B", shiftStart := some "2:00 PM", shiftEnd := some "3:00 PM" },
   { name := "A", shiftStart := some "2:00 PM", shiftEnd := some "3:00 PM" },
   { name := "A", shiftStart := some "2:00 PM", shiftEnd := some "3:00 PM" }]

/-- C1/C5/C7 witnesses: small distinct-name rosters. -/
def smallInput : List EmployeeData :=
  [{ name := "Alice", shiftStart := some "9:00 AM", shiftEnd := some "10:00 AM" },
   { name := "Bob", shiftStart := some "9:00 AM", shiftEnd := some "10:00 AM",
     brk := some "9:00 AM" }]

/-- C6: the grid whose first repetitive seat can only swap with the
Conductor row. -/
def dfC6 : Df :=
  { index := FINAL_SCHEDULE_ROW_ORDER,
    columns := ["1:30 PM", "2:00 PM", "2:30 PM"],
    cells := [["A", "B", "A"], ["B", "A", "B"], ["C", "C", "C"],
      ["", "", ""], ["", "", ""], ["", "", ""], ["", "", ""],
      ["", "", ""], ["", "", ""], ["", "", ""]] }

/-- The swap the sweep performs on `dfC6`. -/
def swapC6 : SwapRec :=
  { time_idx := 2, pos1 := "Handout", emp1 := "A", pos2 := "Conductor", emp2 := "C" }

/-- Ten slot labels for the C7 grid. -/
def colsC7 : List String :=
  ["9:00 AM", "9:30 AM", "10:00 AM", "10:30 AM", "11:00 AM",
   "11:30 AM", "12:00 PM", "12:30 PM", "1:00 PM", "1:30 PM"]

/-- C7: one employee parked in Handout and one in Expo all day — every
sweep finds another repetitive seat, so the five-swap cap is hit and a
second run keeps swapping. -/
def dfC7 : Df :=
  { index := FINAL_SCHEDULE_ROW_ORDER,
    columns := colsC7,
    cells := [colsC7.map (fun _ => "A"), colsC7.map (fun _ => ""),
      colsC7.map (fun _ => ""), colsC7.map (fun _ => ""),
      colsC7.map (fun _ => "B"), colsC7.map (fun _ => ""),
      colsC7.map (fun _ => ""), colsC7.map (fun _ => ""),
      colsC7.map (fun _ => ""), colsC7.map (fun _ => "")] }

/-- The preprocessed data has a row for `e` at slot `t` on which `e` is
free for competitive assignment. -/
def hasFreeRow (df : List SlotRow) (t e : String) : Bool :=
  df.any (fun r => r.time == t && r.name == e && !r.isOnBreak && !r.isOnToffTL)

/-- The preprocessed data flags `e` on break at slot `t`. -/
def hasBreakRow (df : List SlotRow) (t e : String) : Bool :=
  df.any (fun r => r.time == t && r.name == e && r.isOnBreak)

/-- The preprocessed data flags `e` in training at slot `t`. -/
def hasToffRow (df : List SlotRow) (t e : String) : Bool :=
  df.any (fun r => r.time == t && r.name == e && r.isOnToffTL)

/-- C7 witness grid: two slots, nothing repetitive. -/
def dfCalm : Df :=
  { index := FINAL_SCHEDULE_ROW_ORDER,
    columns := ["9:00 AM", "9:30 AM"],
    cells := [["A", "B"], ["B", "A"], ["", ""], ["", ""], ["", ""],
      ["", ""], ["", ""], ["", ""], ["", ""], ["", ""]] }

/-- No employee holds Line Buster seats in two consecutive slots of the
table. -/
def NoConsecLB (rows : List OutRow) : Prop :=
  ∀ i e, ¬(inLB (rowAssignments rows i) e = true ∧
    inLB (rowAssignments rows (i + 1)) e = true)

/-- No employee holds the same seat in three consecutive slots of the
table. -/
def NoTripleSeat (rows : List OutRow) : Prop :=
  ∀ i p e, ¬(holdsSeat (rowAssignments rows i) p e = true ∧
    holdsSeat (rowAssignments rows (i + 1)) p e = true ∧
    holdsSeat (rowAssignments rows (i + 2)) p e = true)

/-- No employee holds the same non-Line-Buster seat in three consecutive
slots of the table. -/
def NoTripleSeatNonLB (rows : List OutRow) : Prop :=
  ∀ i p e, LINE_BUSTER_ROLES.contains p = false →
    ¬(holdsSeat (rowAssignments rows i) p e = true ∧
      holdsSeat (rowAssignments rows (i + 1)) p e = true ∧
      holdsSeat (rowAssignments rows (i + 2)) p e = true)

/-- Each employee's total listing count across the competitive seats, the
Break cell and the ToffTL cell of one output row equals the sum of the
availability, on-break and in-training indicators of the preprocessed
data at that row's time. -/
def RowListingOK (df : List SlotRow) (r : OutRow) : Prop :=
  ∀ e, (r.assignments.map Prod.snd).count e + r.breakList.count e + r.toffTLList.count e
    = (if hasFreeRow df r.time e = true then 1 else 0)
      + (if hasBreakRow df r.time e = true then 1 else 0)
      + (if hasToffRow df r.time e = true then 1 else 0)

/-- The entries one employee contributes to `employee_schedule_map` from
column `i` alone (the inner loop of lines 462-466 restricted to one
column). -/
def colEntries (df : Df) (e : String) (i : Nat) : List MapEntry :=
  (List.range df.index.length).filterMap (fun j =>
    match df.index.get? j with
    | some pos =>
      let emp := (df.cells.getD j []).getD i ""
      if emp != "" then (if emp == e then some (i, pos) else none) else none
    | none => none)

/-- Iterated sweep steps (`for _ in range(5)` unrolled to any count). -/
def iterSweep : Nat → Df × SwapMap × Nat → Df × SwapMap × Nat
  | 0, x => x
  | k + 1, x => sweepStep (iterSweep k x)

/-! ### Concrete evaluation theorems -/

/-- C2: on the one-employee roster, `create_schedule_phoenix` raises
`TypeError` — the memoization key `(time_idx, tuple(sorted(states.items())))`
contains dicts and is unhashable — while the naive exhaustive search over
hard-legal per-slot permutations (no memoization, no bound pruning) returns
the complete minimum-cost schedule, so the two never agree on any input
that assigns an employee. -/
theorem c2_phoenix_crashes_where_naive_succeeds :
    create_schedule_phoenix [] none none aliceOnly = .error .typeError ∧
    naiveExhaustivePhoenix aliceOnly =
      some (-90, [[("Handout", "Alice .")], [("Handout", "Alice .")]]) :=
  ⟨rfl, by decide⟩

/-- C3: `create_schedule_phoenix` raises `TypeError` on the two-employee
roster before any note logic runs, so no explanatory note is ever attached
to a schedule that assigns an employee. -/
theorem c3_phoenix_crashes_before_note_logic :
    create_schedule_phoenix [] none none pairInput = .error .typeError := rfl

/-- C4 (counterexample): on the spec's one-employee 9:00–13:00 scenario the
scheduler does not return a schedule at all — it raises `TypeError` — so no
table with the employee in Handout for all eight slots exists. -/
theorem c4_scenario_not_met :
    create_schedule_phoenix [] (some 480) (some 1380) soloScenario = .error .typeError := rfl

/-- C4 (amended): the call raises `TypeError`, and even the memoization-free
exhaustive hard-rule search finds no complete schedule on this input: a
lone employee cannot hold the single open position beyond two consecutive
slots, so the scenario's eight-slot Handout schedule contradicts the hard
rules themselves.  The scenario spans eight slots. -/
theorem c4_scenario_amended :
    create_schedule_phoenix [] (some 480) (some 1380) soloScenario = .error .typeError ∧
    naiveExhaustivePhoenix soloScenario = none ∧
    (timeSlotsOf (preprocess_employee_data soloScenario)).length = 8 :=
  ⟨rfl, by decide, by decide⟩

/-- C8 (counterexample): on the two-employee full-day scenario with a break
at 1:00 PM, `create_schedule_phoenix` raises `TypeError` instead of
returning a schedule, so the claimed Break row does not exist. -/
theorem c8_phoenix_crashes_on_break_scenario :
    create_schedule_phoenix [] none none breakScenario = .error .typeError := rfl

/-- C8 (amended): the entry point raises `TypeError`; in the preprocessed
data the fixed 30-minute break covers exactly the 1:00 PM slot — the Break
membership at 1:00 PM is exactly the breaking employee, the 1:30 PM Break
membership is empty, and that employee is excluded from competitive
availability at 1:00 PM only. -/
theorem c8_break_covers_one_slot :
    create_schedule_phoenix [] none none breakScenario = .error .typeError ∧
    breaksAt (preprocess_employee_data breakScenario) "1:00 PM" = ["Bob J."] ∧
    breaksAt (preprocess_employee_data breakScenario) "1:30 PM" = [] ∧
    availabilityOf (preprocess_employee_data breakScenario) "1:00 PM" = ["Alice S."] ∧
    availabilityOf (preprocess_employee_data breakScenario) "1:30 PM" =
      ["Alice S.", "Bob J."] :=
  ⟨rfl, by decide, by decide, by decide, by decide⟩

/-- C10: the global `memo_cache` is reassigned to a fresh dict at the top
of every `create_schedule_phoenix` call, so the outcome never depends on
the cache a previous invocation (with the same or different input) left
behind; but the outcome itself on any roster that assigns an employee is
the `TypeError` from the unhashable memoization key, not an output
string — shown here with a nonempty stale cache. -/
theorem c10_cache_reset_independence_and_crash :
    (∀ (m1 m2 : Memo) (so sc : Option Nat) (inp : List EmployeeData),
      create_schedule_phoenix m1 so sc inp = create_schedule_phoenix m2 so sc inp) ∧
    create_schedule_phoenix [((0, []), (.fin 7, none))] none none aliceOnly =
      .error .typeError :=
  ⟨fun _ _ _ _ _ => rfl, rfl⟩

/-- C1 (counterexample): two roster records share the display name `A .`;
`create_schedule_backtracking_classic` accepts a schedule in which that
employee name holds Line Buster 1 in both consecutive slots — the shared
per-name state is overwritten by the later seat, so the screen misses the
repeat — and the classic entry point never attaches any note. -/
theorem c1_duplicate_name_consecutive_line_buster :
    create_schedule_backtracking_classic none none dupNameInput =
      .table ""
        [{ time := "2:00 PM",
           assignments := [("Handout", "B ."), ("Line Buster 1", "A ."), ("Conductor", "A .")],
           breakList := [], toffTLList := [] },
         { time := "2:30 PM",
           assignments := [("Handout", "B ."), ("Line Buster 1", "A ."), ("Conductor", "A .")],
           breakList := [], toffTLList := [] }] ∧
    (match create_schedule_backtracking_classic none none dupNameInput with
      | .table _ rows => hasConsecutiveLB rows
      | _ => false) = true :=
  ⟨by decide, by decide⟩

/-- C5 (counterexample): an employee whose break interval and training
interval both cover a slot is listed in both the Break row and the ToffTL
row of that slot by `create_schedule_backtracking_classic`, appearing twice
across the slot's rows. -/
theorem c5_break_and_training_double_listing :
    create_schedule_backtracking_classic none none overlapInput =
      .table ""
        [{ time := "9:00 AM", assignments := [],
           breakList := ["Eve ."], toffTLList := ["Eve ."] }] :=
  by decide

/-- C9 (counterexample): with a nonempty roster whose only employee has an
unparseable shift start, `create_schedule_phoenix_diverse` raises
`KeyError` — the inner phoenix call returns the no-data failure string,
the guard only intercepts `"Could not find"`, and `pd.read_csv` of the
failure text has no `Position` column — instead of returning the failure
string. -/
theorem c9_diverse_raises_keyerror :
    create_schedule_phoenix_diverse [] none none ghostInput = .error .keyError := rfl

/-- C6 (counterexample): on the `dfC6` grid the very first swap the sweep
performs uses the Conductor seat as the partner position (slot 2, the
repetitive Handout employee swaps with the Conductor), so a performed swap
does involve the lead role. -/
theorem c6_swap_partner_is_conductor :
    scanSwap dfC6 (buildMap dfC6) =
      some { time_idx := 2, pos1 := "Handout", emp1 := "A",
             pos2 := "Conductor", emp2 := "C" } ∧
    (sweepStep (dfC6, buildMap dfC6, 0)).2.2 = 1 :=
  ⟨by decide, by decide⟩

/-- C7 (counterexample): the sweep performs at most one swap per pass and
five passes, so on the `dfC7` grid the first run stops at five swaps while
repetitive seats remain, and a second run on its output performs five
further swaps — the pass is not idempotent. -/
theorem c7_second_run_swaps_again :
    (runDiversePass dfC7).2 = 5 ∧
    (runDiversePass (runDiversePass dfC7).1).2 = 5 :=
  ⟨by decide, by decide⟩


/-! ### Helper lemmas -/

theorem findSome?_some {α β : Type} {f : α → Option β} {b : β} :
    ∀ {l : List α}, l.findSome? f = some b → ∃ a, a ∈ l ∧ f a = some b := by
  intro l
  induction l with
  | nil => intro h; simp [List.findSome?] at h
  | cons x xs ih =>
    intro h
    rw [List.findSome?_cons] at h
    cases hx : f x with
    | some v =>
      rw [hx] at h
      simp only at h
      exact ⟨x, List.mem_cons_self x xs, by rw [hx, h]⟩
    | none =>
      rw [hx] at h
      simp only at h
      obtain ⟨a, ha, hfa⟩ := ih h
      exact ⟨a, List.mem_cons_of_mem x ha, hfa⟩

/-- C6: every swap the sweep finds satisfies exactly the source's screen:
the repetitive seat is never Break, ToffTL or Conductor, the partner seat
is never Break or ToffTL (but may be Conductor), the two seats and the two
nonempty employees differ, the repetitive screen fired, and
`is_swap_safe`'s checks hold — nothing about Conductor tenure or
hour-boundary starts is consulted. -/
theorem scanSwap_found (df : Df) (m : SwapMap) (s : SwapRec)
    (h : scanSwap df m = some s) :
    s.pos1 ≠ "Break" ∧ s.pos1 ≠ "ToffTL" ∧ s.pos1 ≠ "Conductor" ∧
    s.pos2 ≠ "Break" ∧ s.pos2 ≠ "ToffTL" ∧ s.pos2 ≠ s.pos1 ∧
    s.emp1 ≠ "" ∧ s.emp2 ≠ "" ∧ s.emp2 ≠ s.emp1 ∧
    dfCell df s.pos1 s.time_idx = s.emp1 ∧
    dfCell df s.pos2 s.time_idx = s.emp2 ∧
    isRepetitive m s.emp1 s.pos1 s.time_idx = true ∧
    is_swap_safe df s.time_idx s.emp1 s.emp2 s.pos1 s.pos2 m = true ∧
    s.pos1 ∈ df.index ∧ s.pos2 ∈ df.index ∧ s.time_idx < df.columns.length := by
  unfold scanSwap at h
  obtain ⟨t, ht, h1⟩ := findSome?_some h
  obtain ⟨p1, hp1, h2⟩ := findSome?_some h1
  simp only at h2
  split at h2
  · exact absurd h2 (by simp)
  · rename_i hskip
    split at h2
    · exact absurd h2 (by simp)
    · rename_i hemp
      split at h2
      · rename_i hrep
        obtain ⟨p2, hp2, h3⟩ := findSome?_some h2
        split at h3
        · exact absurd h3 (by simp)
        · rename_i hskip2
          split at h3
          · rename_i hother
            split at h3
            · rename_i hsafe
              cases h3
              simp only [beq_iff_eq, Bool.or_eq_true, not_or] at hskip hskip2
              simp only [bne_iff_ne, Bool.and_eq_true] at hother
              simp only [beq_iff_eq] at hemp
              obtain ⟨⟨hs1, hs2⟩, hs3⟩ := hskip
              obtain ⟨⟨ht1, ht2⟩, ht3⟩ := hskip2
              exact ⟨hs1, hs2, hs3, ht2, ht3, ht1,
                hemp, hother.1, hother.2, rfl, rfl, hrep, hsafe, hp1, hp2,
                List.mem_range.mp ht⟩
            · exact absurd h3 (by simp)
          · exact absurd h3 (by simp)
      · exact absurd h2 (by simp)

theorem lookup_dictSet {α : Type} (m : List (String × α)) (e k : String) (v : α) :
    (dictSet m e v).lookup k = if k = e then some v else m.lookup k := by
  induction m with
  | nil =>
    by_cases h : k = e
    · simp [dictSet, List.lookup, h]
    · simp [dictSet, List.lookup, h, beq_eq_false_iff_ne.mpr h]
  | cons kv rest ih =>
    by_cases hke : kv.1 = e
    · simp only [dictSet, beq_iff_eq.mpr hke, if_true]
      by_cases hk : k = e
      · simp [List.lookup, hk]
      · have hkk : k ≠ kv.1 := fun hc => hk (hc.trans hke)
        simp [List.lookup, beq_eq_false_iff_ne.mpr hk, beq_eq_false_iff_ne.mpr hkk, hk]
    · simp only [dictSet, beq_eq_false_iff_ne.mpr hke, Bool.false_eq_true, if_false]
      by_cases hkk : k = kv.1
      · have hk : ¬k = e := fun hc => hke ((hkk.symm.trans hc))
        simp [List.lookup, beq_iff_eq.mpr hkk, hk]
      · simp [List.lookup, beq_eq_false_iff_ne.mpr hkk, ih]

theorem find?_snd_eq_of_mem {a : Assignment} {p e : String}
    (hmem : (p, e) ∈ a) (hnd : (a.map Prod.snd).Nodup) :
    a.find? (fun pe => pe.2 == e) = some (p, e) := by
  induction a with
  | nil => cases hmem
  | cons x xs ih =>
    rw [List.map_cons] at hnd
    have hnd' := List.nodup_cons.mp hnd
    rw [List.find?]
    rcases List.mem_cons.mp hmem with h | h
    · subst h; simp
    · have hx : (x.2 == e) = false := by
        refine beq_eq_false_iff_ne.mpr (fun hc => ?_)
        exact hnd'.1 (hc ▸ List.mem_map_of_mem Prod.snd h)
      simp only [hx]
      exact ih h hnd'.2

theorem find?_snd_eq_none {a : Assignment} {e : String}
    (h : e ∉ a.map Prod.snd) :
    a.find? (fun pe => pe.2 == e) = none := by
  induction a with
  | nil => rfl
  | cons x xs ih =>
    rw [List.find?]
    have hx : (x.2 == e) = false := by
      refine beq_eq_false_iff_ne.mpr (fun hc => ?_)
      exact h (by simp [hc])
    simp only [hx]
    exact ih (fun hc => h (List.mem_cons_of_mem _ hc))

theorem lookup_foldl_dictSet {α : Type} (f : String × String → α) :
    ∀ (a : Assignment) (st : List (String × α)) (e : String),
    (a.map Prod.snd).Nodup →
    (a.foldl (fun m pe => dictSet m pe.2 (f pe)) st).lookup e =
      (match a.find? (fun pe => pe.2 == e) with
       | some pe => some (f pe)
       | none => st.lookup e) := by
  intro a
  induction a with
  | nil => intro st e _; rfl
  | cons x xs ih =>
    intro st e hnd
    rw [List.map_cons] at hnd
    have hnd' := List.nodup_cons.mp hnd
    rw [List.foldl_cons, List.find?]
    cases hx : (x.2 == e) with
    | true =>
      simp only
      rw [ih _ _ hnd'.2]
      have hfind : xs.find? (fun pe => pe.2 == e) = none := by
        apply find?_snd_eq_none
        intro hc
        exact hnd'.1 ((beq_iff_eq.mp hx) ▸ hc)
      rw [hfind]
      simp only
      rw [lookup_dictSet]
      simp [(beq_iff_eq.mp hx).symm]
    | false =>
      simp only
      rw [ih _ _ hnd'.2]
      cases hfind : xs.find? (fun pe => pe.2 == e) with
      | some pe => simp
      | none =>
        simp only
        rw [lookup_dictSet]
        have hne : ¬e = x.2 := fun hc => (beq_eq_false_iff_ne.mp hx) hc.symm
        simp [hne]

/-- C6: every swap the sweep performs satisfies the scan-guard facts:
the repetitive seat is never Break, ToffTL or Conductor, the partner seat
is never Break or ToffTL (but may be Conductor), the two seats and the two
nonempty employees differ, the repetitive screen fired, and
`is_swap_safe`'s checks hold — nothing about Conductor tenure or
hour-boundary starts is consulted. -/
theorem c6_swap_properties (df : Df) (m : SwapMap) (s : SwapRec)
    (h : scanSwap df m = some s) :
    s.pos1 ≠ "Break" ∧ s.pos1 ≠ "ToffTL" ∧ s.pos1 ≠ "Conductor" ∧
    s.pos2 ≠ "Break" ∧ s.pos2 ≠ "ToffTL" ∧ s.pos2 ≠ s.pos1 ∧
    s.emp1 ≠ "" ∧ s.emp2 ≠ "" ∧ s.emp2 ≠ s.emp1 ∧
    dfCell df s.pos1 s.time_idx = s.emp1 ∧
    dfCell df s.pos2 s.time_idx = s.emp2 ∧
    isRepetitive m s.emp1 s.pos1 s.time_idx = true ∧
    is_swap_safe df s.time_idx s.emp1 s.emp2 s.pos1 s.pos2 m = true ∧
    s.pos1 ∈ df.index ∧ s.pos2 ∈ df.index ∧ s.time_idx < df.columns.length :=
  scanSwap_found df m s h

/-- C6 witness: the swap-properties theorem applied to the concrete grid
whose first repetitive seat swaps with the Conductor seat. -/
theorem c6_swap_properties_witness :
    scanSwap dfC6 (buildMap dfC6) = some swapC6 ∧
    (swapC6.pos1 ≠ "Break" ∧ swapC6.pos1 ≠ "ToffTL" ∧ swapC6.pos1 ≠ "Conductor" ∧
     swapC6.pos2 ≠ "Break" ∧ swapC6.pos2 ≠ "ToffTL" ∧ swapC6.pos2 ≠ swapC6.pos1 ∧
     swapC6.emp1 ≠ "" ∧ swapC6.emp2 ≠ "" ∧ swapC6.emp2 ≠ swapC6.emp1 ∧
     dfCell dfC6 swapC6.pos1 swapC6.time_idx = swapC6.emp1 ∧
     dfCell dfC6 swapC6.pos2 swapC6.time_idx = swapC6.emp2 ∧
     isRepetitive (buildMap dfC6) swapC6.emp1 swapC6.pos1 swapC6.time_idx = true ∧
     is_swap_safe dfC6 swapC6.time_idx swapC6.emp1 swapC6.emp2 swapC6.pos1 swapC6.pos2
       (buildMap dfC6) = true ∧
     swapC6.pos1 ∈ dfC6.index ∧ swapC6.pos2 ∈ dfC6.index ∧
     swapC6.time_idx < dfC6.columns.length) :=
  ⟨by decide, c6_swap_properties dfC6 (buildMap dfC6) swapC6 (by decide)⟩


theorem selections_perm : ∀ (l : List String) (x : String) (rest : List String),
    (x, rest) ∈ selections l → l.Perm (x :: rest) := by
  intro l
  induction l with
  | nil => intro x rest h; cases h
  | cons y ys ih =>
    intro x rest h
    rcases List.mem_cons.mp h with h1 | h1
    · cases h1; exact List.Perm.refl _
    · obtain ⟨⟨x', rest'⟩, hmem, heq⟩ := List.mem_map.mp h1
      cases heq
      exact ((ih x' rest' hmem).cons y).trans (List.Perm.swap x' y rest')

theorem pyPermutationsAux_perm :
    ∀ (fuel : Nat) (l : List String) (p : List String),
    l.length = fuel → p ∈ pyPermutationsAux fuel l → l.Perm p := by
  intro fuel
  induction fuel with
  | zero =>
    intro l p hlen hp
    simp only [pyPermutationsAux, List.mem_singleton] at hp
    subst hp
    cases l with
    | nil => exact List.Perm.refl _
    | cons x xs => simp at hlen
  | succ n ih =>
    intro l p hlen hp
    simp only [pyPermutationsAux] at hp
    rw [List.mem_flatMap] at hp
    obtain ⟨⟨x, rest⟩, hsel, hmap⟩ := hp
    obtain ⟨q, hq, heq⟩ := List.mem_map.mp hmap
    subst heq
    have hperm := selections_perm l x rest hsel
    have hrest : rest.length = n := by
      have := hperm.length_eq
      simp at this
      omega
    exact hperm.trans ((ih rest q hrest hq).cons x)

theorem pyPermutations_perm {l p : List String} (h : p ∈ pyPermutations l) : l.Perm p :=
  pyPermutationsAux_perm l.length l p rfl h

theorem getC_update_mem {st : CStates} {a : Assignment} {p e : String}
    (hmem : (p, e) ∈ a) (hnd : (a.map Prod.snd).Nodup) :
    getC (updateCStates st a) e = classicNewState st (p, e) := by
  unfold getC updateCStates
  rw [lookup_foldl_dictSet _ _ _ _ hnd, find?_snd_eq_of_mem hmem hnd]
  rfl

theorem getP_update_mem {st : PStates} {a : Assignment} {p e : String}
    (hmem : (p, e) ∈ a) (hnd : (a.map Prod.snd).Nodup) :
    getP (updatePStates st a) e = phoenixNewState st (p, e) := by
  unfold getP updatePStates
  rw [lookup_foldl_dictSet _ _ _ _ hnd, find?_snd_eq_of_mem hmem hnd]
  rfl

theorem getC_update_not_mem {st : CStates} {a : Assignment} {e : String}
    (hmem : e ∉ a.map Prod.snd) (hnd : (a.map Prod.snd).Nodup) :
    getC (updateCStates st a) e = getC st e := by
  unfold getC updateCStates
  rw [lookup_foldl_dictSet _ _ _ _ hnd, find?_snd_eq_none hmem]

theorem getP_update_not_mem {st : PStates} {a : Assignment} {e : String}
    (hmem : e ∉ a.map Prod.snd) (hnd : (a.map Prod.snd).Nodup) :
    getP (updatePStates st a) e = getP st e := by
  unfold getP updatePStates
  rw [lookup_foldl_dictSet _ _ _ _ hnd, find?_snd_eq_none hmem]

theorem tryPermsClassic_some {cont : CStates → Option Sched} {slotMin : Nat}
    {positions : List String} {st : CStates} :
    ∀ {perms : List (List String)} {sched : Sched},
    tryPermsClassic cont slotMin positions st perms = some sched →
    ∃ p, p ∈ perms ∧ ∃ s',
      sched = (positions.zip p) :: s' ∧
      is_assignment_valid_backtracking_classic (positions.zip p) slotMin st = true ∧
      cont (updateCStates st (positions.zip p)) = some s' := by
  intro perms
  induction perms with
  | nil => intro sched h; cases h
  | cons p rest ih =>
    intro sched h
    rw [tryPermsClassic] at h
    split at h
    · rename_i hvalid
      cases hc : cont (updateCStates st (positions.zip p)) with
      | some s' =>
        rw [hc] at h
        cases h
        exact ⟨p, List.mem_cons_self p rest, s', rfl, hvalid, hc⟩
      | none =>
        rw [hc] at h
        obtain ⟨q, hq, s', rfl, hv, hcq⟩ := ih h
        exact ⟨q, List.mem_cons_of_mem p hq, s', rfl, hv, hcq⟩
    · obtain ⟨q, hq, s', rfl, hv, hcq⟩ := ih h
      exact ⟨q, List.mem_cons_of_mem p hq, s', rfl, hv, hcq⟩

theorem solve_classic_accept (availability : String → List String) :
    ∀ (slots : List String) (st : CStates) (sched : Sched),
    solve_classic_recursive availability slots st = some sched →
    ClassicAccept availability slots st sched := by
  intro slots
  induction slots with
  | nil =>
    intro st sched h
    rw [solve_classic_recursive] at h
    cases h
    exact ClassicAccept.nil st
  | cons slot rest ih =>
    intro st sched h
    rw [solve_classic_recursive] at h
    split at h
    · cases h
    · rename_i hlen
      obtain ⟨p, hp, s', rfl, hv, hc⟩ := tryPermsClassic_some h
      have hlen' : (WORK_POSITIONS.take (availability slot).length).length =
          (availability slot).length := by
        simpa using hlen
      exact ClassicAccept.cons slot rest st p s' hp hlen' hv (ih _ _ hc)

theorem tryPermsClassicLimited_some {cont : CStates → Nat → Option Sched} {slotMin : Nat}
    {positions : List String} {st : CStates} {cbc : Nat} :
    ∀ {perms : List (List String)} {sched : Sched},
    tryPermsClassicLimited cont slotMin positions st cbc perms = some sched →
    ∃ p, p ∈ perms ∧ ∃ s' k,
      sched = (positions.zip p) :: s' ∧
      classicLimitedScan slotMin st (positions.zip p) 0 = some k ∧
      cont (updateCStates st (positions.zip p)) (cbc + k) = some s' := by
  intro perms
  induction perms with
  | nil => intro sched h; cases h
  | cons p rest ih =>
    intro sched h
    rw [tryPermsClassicLimited] at h
    split at h
    · obtain ⟨q, hq, s', k, rfl, hs, hcq⟩ := ih h
      exact ⟨q, List.mem_cons_of_mem p hq, s', k, rfl, hs, hcq⟩
    · rename_i cb hscan
      split at h
      · obtain ⟨q, hq, s', k, rfl, hs, hcq⟩ := ih h
        exact ⟨q, List.mem_cons_of_mem p hq, s', k, rfl, hs, hcq⟩
      · split at h
        · rename_i s' hc
          cases h
          exact ⟨p, List.mem_cons_self p rest, s', cb, rfl, hscan, hc⟩
        · obtain ⟨q, hq, s', k, rfl, hs, hcq⟩ := ih h
          exact ⟨q, List.mem_cons_of_mem p hq, s', k, rfl, hs, hcq⟩

theorem solve_classic_limited_accept (availability : String → List String) :
    ∀ (slots : List String) (st : CStates) (cbc : Nat) (sched : Sched),
    solve_classic_limited_breaks_recursive availability slots st cbc = some sched →
    ClassicLimitedAccept availability slots st sched := by
  intro slots
  induction slots with
  | nil =>
    intro st cbc sched h
    rw [solve_classic_limited_breaks_recursive] at h
    cases h
    exact ClassicLimitedAccept.nil st
  | cons slot rest ih =>
    intro st cbc sched h
    rw [solve_classic_limited_breaks_recursive] at h
    split at h
    · cases h
    · rename_i hlen
      obtain ⟨p, hp, s', k, rfl, hscan, hc⟩ := tryPermsClassicLimited_some h
      have hlen' : (WORK_POSITIONS.take (availability slot).length).length =
          (availability slot).length := by
        simpa using hlen
      exact ClassicLimitedAccept.cons slot rest st p s' k hp hlen' hscan (ih _ _ _ hc)

theorem phoenixLimitedLoop_some (Q : PStates → Sched → Prop)
    (P : List (List String))
    {cont : PStates → ECost → Nat → Option (Int × Sched)} {slotMin : Nat}
    {positions : List String} {st : PStates} {cbc : Nat} {bound0 : ECost}
    (hc : ∀ st' b c r, cont st' b c = some r → Q st' r.2) :
    ∀ (perms : List (List String)) (acc : Option (Int × Sched)) (out : Int × Sched),
    (∀ p' ∈ perms, p' ∈ P) →
    (∀ ca, acc = some ca → ∃ p, p ∈ P ∧ ∃ s',
      ca.2 = (positions.zip p) :: s' ∧
      phoenixHardViolation (positions.zip p) st = false ∧
      Q (updatePStates st (positions.zip p)) s') →
    phoenixLimitedLoop cont slotMin positions st cbc bound0 perms acc = some out →
    ∃ p, p ∈ P ∧ ∃ s',
      out.2 = (positions.zip p) :: s' ∧
      phoenixHardViolation (positions.zip p) st = false ∧
      Q (updatePStates st (positions.zip p)) s' := by
  intro perms
  induction perms with
  | nil =>
    intro acc out _ hacc h
    rw [phoenixLimitedLoop.eq_def] at h
    exact hacc out h
  | cons p rest ih =>
    intro acc out hsub hacc h
    rw [phoenixLimitedLoop.eq_def] at h
    dsimp only at h
    split at h
    · exact ih _ _ (fun q hq => hsub q (List.mem_cons_of_mem p hq)) hacc h
    · split at h
      · exact ih _ _ (fun q hq => hsub q (List.mem_cons_of_mem p hq)) hacc h
      · rename_i hbudget hviol
        split at h
        · exact ih _ _ (fun q hq => hsub q (List.mem_cons_of_mem p hq)) hacc h
        · split at h
          · exact ih _ _ (fun q hq => hsub q (List.mem_cons_of_mem p hq)) hacc h
          · rename_i fcs hcont
            split at h
            · refine ih _ _ (fun q hq => hsub q (List.mem_cons_of_mem p hq)) ?_ h
              intro ca hca
              cases hca
              refine ⟨p, hsub p (List.mem_cons_self p rest), fcs.2, rfl, ?_, hc _ _ _ _ hcont⟩
              simpa using hviol
            · exact ih _ _ (fun q hq => hsub q (List.mem_cons_of_mem p hq)) hacc h

theorem solve_phoenix_limited_accept (availability : String → List String) :
    ∀ (slots : List String) (st : PStates) (bound : ECost) (cbc : Nat) (out : Int × Sched),
    solve_phoenix_limited_breaks_recursive availability slots st bound cbc = some out →
    PhoenixLimitedAccept availability slots st out.2 := by
  intro slots
  induction slots with
  | nil =>
    intro st bound cbc out h
    rw [solve_phoenix_limited_breaks_recursive] at h
    cases h
    exact PhoenixLimitedAccept.nil st
  | cons slot rest ih =>
    intro st bound cbc out h
    rw [solve_phoenix_limited_breaks_recursive] at h
    split at h
    · cases h
    · rename_i hlen
      have hlen' : (WORK_POSITIONS.take (availability slot).length).length =
          (availability slot).length := by
        simpa using hlen
      have := phoenixLimitedLoop_some
        (fun st' s => PhoenixLimitedAccept availability rest st' s)
        (pyPermutations (availability slot))
        (fun st' b c r hr => ih st' b c r hr)
        (pyPermutations (availability slot)) none out (fun q hq => hq)
        (fun ca hca => by cases hca) h
      obtain ⟨p, hp, s', hout, hviol, hq⟩ := this
      rw [hout]
      exact PhoenixLimitedAccept.cons slot rest st p s' hp hlen' hviol hq

theorem valid_imp_tenureOkC {a : Assignment} {slotMin : Nat} {st : CStates}
    (h : is_assignment_valid_backtracking_classic a slotMin st = true) :
    tenureOkC a st = true := by
  rw [is_assignment_valid_backtracking_classic, List.all_eq_true] at h
  rw [tenureOkC, List.all_eq_true]
  intro pe hpe
  have := h pe hpe
  rw [Bool.and_eq_true] at this
  exact this.1

theorem scan_imp_tenureOkC {slotMin : Nat} {st : CStates} :
    ∀ {a : Assignment} {acc k : Nat},
    classicLimitedScan slotMin st a acc = some k → tenureOkC a st = true := by
  intro a
  induction a with
  | nil => intro acc k _; rfl
  | cons pe rest ih =>
    intro acc k h
    rw [classicLimitedScan] at h
    split at h
    · cases h
    · rename_i hclause
      rw [tenureOkC, List.all_eq_true]
      intro qe hqe
      rcases List.mem_cons.mp hqe with h1 | h1
      · subst h1
        simp only [Bool.not_eq_true']
        exact Bool.of_not_eq_true hclause
      · have := ih h
        rw [tenureOkC, List.all_eq_true] at this
        exact this qe h1

theorem map_snd_zip_eq {α β : Type} :
    ∀ (l1 : List α) (l2 : List β), l1.length = l2.length →
    (l1.zip l2).map Prod.snd = l2 := by
  intro l1
  induction l1 with
  | nil =>
    intro l2 h
    cases l2 with
    | nil => rfl
    | cons y ys => simp at h
  | cons x xs ih =>
    intro l2 h
    cases l2 with
    | nil => simp at h
    | cons y ys =>
      simp only [List.zip_cons_cons, List.map_cons]
      rw [ih ys (by simpa using h)]

theorem zip_snd_nodup {positions p avail : List String}
    (hlen : positions.length = avail.length)
    (hp : p ∈ pyPermutations avail) (havail : avail.Nodup) :
    ((positions.zip p).map Prod.snd).Nodup := by
  have hperm := pyPermutations_perm hp
  have hpl : positions.length = p.length := by rw [hlen, hperm.length_eq]
  rw [map_snd_zip_eq positions p hpl]
  exact hperm.nodup_iff.mp havail

theorem classicAccept_chain {availability : String → List String}
    {slots : List String} {st : CStates} {sched : Sched}
    (h : ClassicAccept availability slots st sched)
    (hnd : ∀ slot ∈ slots, (availability slot).Nodup) : TChainC st sched := by
  induction h with
  | nil st => exact .nil st
  | cons slot rest st p s' hp hlen hvalid _ ih =>
    exact .cons st _ s' (valid_imp_tenureOkC hvalid)
      (zip_snd_nodup hlen hp (hnd slot (List.mem_cons_self slot rest)))
      (ih (fun s hs => hnd s (List.mem_cons_of_mem slot hs)))

theorem classicLimitedAccept_chain {availability : String → List String}
    {slots : List String} {st : CStates} {sched : Sched}
    (h : ClassicLimitedAccept availability slots st sched)
    (hnd : ∀ slot ∈ slots, (availability slot).Nodup) : TChainC st sched := by
  induction h with
  | nil st => exact .nil st
  | cons slot rest st p s' k hp hlen hscan _ ih =>
    exact .cons st _ s' (scan_imp_tenureOkC hscan)
      (zip_snd_nodup hlen hp (hnd slot (List.mem_cons_self slot rest)))
      (ih (fun s hs => hnd s (List.mem_cons_of_mem slot hs)))

theorem phoenixLimitedAccept_chain {availability : String → List String}
    {slots : List String} {st : PStates} {sched : Sched}
    (h : PhoenixLimitedAccept availability slots st sched)
    (hnd : ∀ slot ∈ slots, (availability slot).Nodup) : TChainP st sched := by
  induction h with
  | nil st => exact .nil st
  | cons slot rest st p s' hp hlen hviol _ ih =>
    exact .cons st _ s' hviol
      (zip_snd_nodup hlen hp (hnd slot (List.mem_cons_self slot rest)))
      (ih (fun s hs => hnd s (List.mem_cons_of_mem slot hs)))


theorem optMem_some (q : String) (roles : List String) :
    optMem (some q) roles = roles.contains q := rfl

theorem optEq_some (q p : String) : optEq (some q) p = (q == p) := rfl

theorem classicNewState_last (st : CStates) (p e : String) :
    (classicNewState st (p, e)).last_pos = some p := rfl

theorem phoenixNewState_last (st : PStates) (p e : String) :
    (phoenixNewState st (p, e)).last_pos = some p := rfl

theorem inLB_exists {a : Assignment} {e : String} (h : inLB a e = true) :
    ∃ q, (q, e) ∈ a ∧ LINE_BUSTER_ROLES.contains q = true := by
  rw [inLB, List.any_eq_true] at h
  obtain ⟨pe, hpe, hq⟩ := h
  rw [Bool.and_eq_true] at hq
  have he : pe.2 = e := by simpa using hq.2
  exact ⟨pe.1, by rw [← he]; exact hpe, hq.1⟩

theorem holdsSeat_mem {a : Assignment} {p e : String} (h : holdsSeat a p e = true) :
    (p, e) ∈ a := by
  rw [holdsSeat] at h
  simpa using h

theorem tchainC_noLB2 {st : CStates} {sched : Sched} (h : TChainC st sched) :
    ∀ i e, inLB (sched.getD i []) e = true → inLB (sched.getD (i + 1) []) e = true → False := by
  induction h with
  | nil st => intro i e h1 _; simp [inLB, List.getD] at h1
  | cons st a rest hok hnd hrest ih =>
    intro i e h1 h2
    cases i with
    | zero =>
      cases rest with
      | nil => simp [inLB, List.getD] at h2
      | cons b rest' =>
        cases hrest with
        | cons _ _ _ hokb hndb hrest' =>
          obtain ⟨q, hqa, hqLB⟩ := inLB_exists (by simpa using h1)
          obtain ⟨q', hqb, hqLB'⟩ := inLB_exists (by simpa using h2)
          have hlast : (getC (updateCStates st a) e).last_pos = some q := by
            rw [getC_update_mem hqa hnd]
            exact classicNewState_last st q e
          rw [tenureOkC, List.all_eq_true] at hokb
          have hc := hokb (q', e) hqb
          simp only [Bool.not_eq_true', Bool.or_eq_false_iff, Bool.and_eq_false_iff] at hc
          rcases hc.1.1 with h' | h'
          · rw [hqLB'] at h'; cases h'
          · rw [hlast, optMem_some, hqLB] at h'; cases h'
    | succ i => exact ih i e (by simpa using h1) (by simpa using h2)

theorem tchainC_no3 {st : CStates} {sched : Sched} (h : TChainC st sched) :
    ∀ i p e, holdsSeat (sched.getD i []) p e = true →
      holdsSeat (sched.getD (i + 1) []) p e = true →
      holdsSeat (sched.getD (i + 2) []) p e = true → False := by
  induction h with
  | nil st => intro i p e h1 _ _; simp [holdsSeat, List.getD] at h1
  | cons st a rest hok hnd hrest ih =>
    intro i p e h1 h2 h3
    cases i with
    | zero =>
      cases rest with
      | nil => simp [holdsSeat, List.getD] at h2
      | cons b rest' =>
        cases rest' with
        | nil => simp [holdsSeat, List.getD] at h3
        | cons c rest'' =>
          cases hrest with
          | cons _ _ _ hokb hndb hrest' =>
            cases hrest' with
            | cons _ _ _ hokc hndc hrest'' =>
              have hpa : (p, e) ∈ a := holdsSeat_mem (by simpa using h1)
              have hpb : (p, e) ∈ b := holdsSeat_mem (by simpa using h2)
              have hpc : (p, e) ∈ c := holdsSeat_mem (by simpa using h3)
              have hst1 : getC (updateCStates st a) e = classicNewState st (p, e) :=
                getC_update_mem hpa hnd
              have hst2 : getC (updateCStates (updateCStates st a) b) e =
                  classicNewState (updateCStates st a) (p, e) :=
                getC_update_mem hpb hndb
              have hlast : (getC (updateCStates (updateCStates st a) b) e).last_pos = some p := by
                rw [hst2]
                exact classicNewState_last (updateCStates st a) p e
              have htip : (getC (updateCStates (updateCStates st a) b) e).time_in_pos ≥ 2 := by
                rw [hst2]
                show (if optEq (getC (updateCStates st a) e).last_pos p then
                  (getC (updateCStates st a) e).time_in_pos + 1 else 1) ≥ 2
                rw [hst1, classicNewState_last]
                have hopt : optEq (some p) p = true := by simp [optEq_some]
                rw [hopt, if_pos rfl]
                show (classicNewState st (p, e)).time_in_pos + 1 ≥ 2
                dsimp only [classicNewState]
                split <;> omega
              rw [tenureOkC, List.all_eq_true] at hokc
              have hc := hokc (p, e) hpc
              simp only [Bool.not_eq_true', Bool.or_eq_false_iff, Bool.and_eq_false_iff] at hc
              have hdec : decide ((getC (updateCStates (updateCStates st a) b) e).time_in_pos ≥ 2) =
                  true := decide_eq_true htip
              have hopEqp : optEq (getC (updateCStates (updateCStates st a) b) e).last_pos p =
                  true := by rw [hlast, optEq_some]; simp
              by_cases hLB : LINE_BUSTER_ROLES.contains p = true
              · rcases hc.1.1 with h' | h'
                · rw [hLB] at h'; cases h'
                · rw [hlast, optMem_some, hLB] at h'; cases h'
              · by_cases hCond : p = "Conductor"
                · rcases hc.1.2 with (h' | h') | h'
                  · rw [show (p == "Conductor") = true by simp [hCond]] at h'; cases h'
                  · rw [hlast, optEq_some, show (p == "Conductor") = true by simp [hCond]] at h'
                    cases h'
                  · rw [hdec] at h'; cases h'
                · rcases hc.2 with ((h' | h') | h') | h'
                  · rw [Bool.eq_false_iff.mpr hLB] at h'
                    simp at h'
                  · rw [show (p != "Conductor") = true by simp [hCond]] at h'; cases h'
                  · rw [hopEqp] at h'; cases h'
                  · rw [hdec] at h'; cases h'
    | succ i => exact ih i p e (by simpa using h1) (by simpa using h2) (by simpa using h3)

theorem tchainP_no3_nonLB {st : PStates} {sched : Sched} (h : TChainP st sched) :
    ∀ i p e, LINE_BUSTER_ROLES.contains p = false →
      holdsSeat (sched.getD i []) p e = true →
      holdsSeat (sched.getD (i + 1) []) p e = true →
      holdsSeat (sched.getD (i + 2) []) p e = true → False := by
  induction h with
  | nil st => intro i p e _ h1 _ _; simp [holdsSeat, List.getD] at h1
  | cons st a rest hok hnd hrest ih =>
    intro i p e hLB h1 h2 h3
    cases i with
    | zero =>
      cases rest with
      | nil => simp [holdsSeat, List.getD] at h2
      | cons b rest' =>
        cases rest' with
        | nil => simp [holdsSeat, List.getD] at h3
        | cons c rest'' =>
          cases hrest with
          | cons _ _ _ hokb hndb hrest' =>
            cases hrest' with
            | cons _ _ _ hokc hndc hrest'' =>
              have hpa : (p, e) ∈ a := holdsSeat_mem (by simpa using h1)
              have hpb : (p, e) ∈ b := holdsSeat_mem (by simpa using h2)
              have hpc : (p, e) ∈ c := holdsSeat_mem (by simpa using h3)
              have hst1 : getP (updatePStates st a) e = phoenixNewState st (p, e) :=
                getP_update_mem hpa hnd
              have hst2 : getP (updatePStates (updatePStates st a) b) e =
                  phoenixNewState (updatePStates st a) (p, e) :=
                getP_update_mem hpb hndb
              have hlast : (getP (updatePStates (updatePStates st a) b) e).last_pos = some p := by
                rw [hst2]
                exact phoenixNewState_last (updatePStates st a) p e
              have htip : (getP (updatePStates (updatePStates st a) b) e).time_in_pos ≥ 2 := by
                rw [hst2]
                show (if optEq (getP (updatePStates st a) e).last_pos p then
                  (getP (updatePStates st a) e).time_in_pos + 1 else 1) ≥ 2
                rw [hst1, phoenixNewState_last]
                have hopt : optEq (some p) p = true := by simp [optEq_some]
                rw [hopt, if_pos rfl]
                show (phoenixNewState st (p, e)).time_in_pos + 1 ≥ 2
                dsimp only [phoenixNewState]
                split <;> omega
              rw [phoenixHardViolation, List.any_eq_false] at hokc
              have hc := hokc (p, e) hpc
              simp only [Bool.or_eq_true, Bool.and_eq_true, not_or] at hc
              have hdec : decide ((getP (updatePStates (updatePStates st a) b) e).time_in_pos ≥ 2) =
                  true := decide_eq_true htip
              by_cases hCond : p = "Conductor"
              · exact hc.1 ⟨⟨by simp [hCond], by rw [hlast, optEq_some]; simp [hCond]⟩, hdec⟩
              · refine hc.2 ⟨⟨⟨?_, ?_⟩, ?_⟩, hdec⟩
                · rw [hLB]; rfl
                · simp [hCond]
                · rw [hlast, optEq_some]; simp
    | succ i => exact ih i p e hLB (by simpa using h1) (by simpa using h2) (by simpa using h3)

theorem parseClock_fmtTime_all :
    (List.range 1440).all (fun m => parseClock (fmtTime m) == some m) = true := by decide

theorem parseClock_fmtTime {m : Nat} (h : m < 1440) : parseClock (fmtTime m) = some m := by
  have hall := parseClock_fmtTime_all
  rw [List.all_eq_true] at hall
  have := hall m (List.mem_range.mpr h)
  simpa using this

theorem fmtTime_inj {m1 m2 : Nat} (h1 : m1 < 1440) (h2 : m2 < 1440)
    (h : fmtTime m1 = fmtTime m2) : m1 = m2 := by
  have e1 := parseClock_fmtTime h1
  have e2 := parseClock_fmtTime h2
  rw [h, e2] at e1
  exact (Option.some.inj e1).symm

theorem parseHM_lt {s : String} {m : Nat} (h : parseHM s = some m) : m < 1440 := by
  unfold parseHM at h
  split at h
  · split at h
    · split at h
      · rename_i hcond
        cases h
        simp only [Bool.and_eq_true, decide_eq_true_eq] at hcond
        omega
      · cases h
    · cases h
  · cases h

theorem parseClock_lt {s : String} {m : Nat} (h : parseClock s = some m) : m < 1440 := by
  unfold parseClock at h
  split at h
  · exact parseHM_lt h
  · dsimp only at h
    repeat split at h
    all_goals try cases h
    all_goals simp_all
    all_goals omega
  · cases h

theorem parse_time_input_lt {v : Option String} {m : Nat}
    (h : parse_time_input v = some m) : m < 1440 := by
  unfold parse_time_input at h
  split at h
  · cases h
  · dsimp only at h
    split at h
    · cases h
    · exact parseClock_lt h

theorem genSlots_lt {c e m : Nat} (h : m ∈ genSlots c e) : m < e := by
  rw [genSlots, List.mem_map] at h
  obtain ⟨k, hk, rfl⟩ := h
  rw [List.mem_range] at hk
  have h30 : ((e - c + 29) / 30) * 30 ≤ e - c + 29 := Nat.div_mul_le_self _ _
  omega

theorem genSlots_nodup (c e : Nat) : (genSlots c e).Nodup := by
  rw [genSlots]
  refine List.Nodup.map ?_ (List.nodup_range _)
  intro x y hxy
  simp only at hxy
  omega

theorem employeeRows_mem {emp : EmployeeData} {r : SlotRow} (h : r ∈ employeeRows emp) :
    r.name = pyFormatName emp.name ∧ r.time = fmtTime r.minutes ∧ r.minutes < 1440 := by
  unfold employeeRows at h
  dsimp only at h
  split at h
  · rename_i s0 s1 hs0 hs1
    rw [List.mem_map] at h
    obtain ⟨curr, hcurr, rfl⟩ := h
    refine ⟨rfl, rfl, ?_⟩
    have hlt := genSlots_lt hcurr
    have hs := parse_time_input_lt hs1
    show curr < 1440
    omega
  · cases h

theorem employeeRows_time_nodup (emp : EmployeeData) :
    ((employeeRows emp).map (fun r => r.time)).Nodup := by
  unfold employeeRows
  dsimp only
  split
  · rename_i s0 s1 hs0 hs1
    rw [List.map_map]
    refine List.Nodup.map_on ?_ (genSlots_nodup s0 s1)
    intro x hx y hy hxy
    have hxl : x < 1440 := by
      have := genSlots_lt hx
      have := parse_time_input_lt hs1
      omega
    have hyl : y < 1440 := by
      have := genSlots_lt hy
      have := parse_time_input_lt hs1
      omega
    exact fmtTime_inj hxl hyl hxy
  · simp

theorem filter_le_one_of_key {α : Type} (l : List α) (key : α → String) (t : String)
    (p : α → Bool) (hkey : ∀ x, p x = true → key x = t) :
    (l.map key).Nodup → (l.filter p).length ≤ 1 := by
  induction l with
  | nil => intro _; simp
  | cons x xs ih =>
    intro h
    rw [List.map_cons] at h
    have h' := List.nodup_cons.mp h
    rw [List.filter_cons]
    split
    · rename_i hx
      have hnil : xs.filter p = [] := by
        rw [List.filter_eq_nil_iff]
        intro y hy hcy
        apply h'.1
        rw [hkey x hx, ← hkey y hcy]
        exact List.mem_map_of_mem key hy
      simp [hnil]
    · simpa using ih h'.2

theorem preprocess_cons (emp : EmployeeData) (rest : List EmployeeData) :
    preprocess_employee_data (emp :: rest) =
      employeeRows emp ++ preprocess_employee_data rest := by
  rfl

theorem avail_mem_names {input : List EmployeeData} {t e : String}
    (h : e ∈ availabilityOf (preprocess_employee_data input) t) :
    e ∈ formattedNames input := by
  induction input with
  | nil => simp [availabilityOf, preprocess_employee_data] at h
  | cons emp rest ih =>
    rw [preprocess_cons] at h
    unfold availabilityOf at h
    rw [List.filter_append, List.map_append, List.mem_append] at h
    rcases h with h | h
    · rw [List.mem_map] at h
      obtain ⟨r, hr, rfl⟩ := h
      have := employeeRows_mem (List.mem_of_mem_filter hr)
      rw [this.1]
      exact List.mem_cons_self _ _
    · exact List.mem_cons_of_mem _ (ih h)

theorem availabilityOf_nodup {input : List EmployeeData} {t : String}
    (hn : (formattedNames input).Nodup) :
    (availabilityOf (preprocess_employee_data input) t).Nodup := by
  induction input with
  | nil => simp [availabilityOf, preprocess_employee_data]
  | cons emp rest ih =>
    rw [formattedNames, List.map_cons] at hn
    have hn' := List.nodup_cons.mp hn
    rw [preprocess_cons]
    unfold availabilityOf
    rw [List.filter_append, List.map_append]
    have hle := filter_le_one_of_key (employeeRows emp) (fun r => r.time) t
      (fun r => r.time == t && !r.isOnBreak && !r.isOnToffTL)
      (fun r hr => by
        simp only [Bool.and_eq_true, beq_iff_eq] at hr
        exact hr.1.1)
      (employeeRows_time_nodup emp)
    have hrest := ih hn'.2
    cases hfl : (employeeRows emp).filter
        (fun r => r.time == t && !r.isOnBreak && !r.isOnToffTL) with
    | nil =>
      simp only [List.map_nil, List.nil_append]
      exact hrest
    | cons r rs =>
      have : rs = [] := by
        rw [hfl] at hle
        cases rs with
        | nil => rfl
        | cons r2 rs2 => simp at hle
      subst this
      simp only [List.map_cons, List.map_nil, List.nil_append, List.cons_append,
        List.nodup_cons]
      constructor
      · intro hc
        have hname := (employeeRows_mem (List.mem_of_mem_filter
          (hfl ▸ List.mem_cons_self r []))).1
        have hmem : r.name ∈ availabilityOf (preprocess_employee_data rest) t := hc
        have := avail_mem_names hmem
        rw [hname] at this
        exact hn'.1 this
      · exact hrest

theorem classicAccept_length {availability : String → List String}
    {slots : List String} {st : CStates} {sched : Sched}
    (h : ClassicAccept availability slots st sched) : sched.length = slots.length := by
  induction h with
  | nil st => rfl
  | cons slot rest st p s' hp hlen hv hrest ih => simp [ih]

theorem classicLimitedAccept_length {availability : String → List String}
    {slots : List String} {st : CStates} {sched : Sched}
    (h : ClassicLimitedAccept availability slots st sched) : sched.length = slots.length := by
  induction h with
  | nil st => rfl
  | cons slot rest st p s' k hp hlen hscan hrest ih => simp [ih]

theorem phoenixLimitedAccept_length {availability : String → List String}
    {slots : List String} {st : PStates} {sched : Sched}
    (h : PhoenixLimitedAccept availability slots st sched) : sched.length = slots.length := by
  induction h with
  | nil st => rfl
  | cons slot rest st p s' hp hlen hviol hrest ih => simp [ih]

theorem rowAssignments_buildRows (rows : List SlotRow) :
    ∀ (slots : List String) (sched : Sched), slots.length = sched.length →
    ∀ i, rowAssignments (buildRows rows slots sched) i = sched.getD i [] := by
  intro slots
  induction slots with
  | nil =>
    intro sched hlen i
    cases sched with
    | nil => cases i <;> rfl
    | cons a as => simp at hlen
  | cons s ss ih =>
    intro sched hlen i
    cases sched with
    | nil => simp at hlen
    | cons a as =>
      cases i with
      | zero => rfl
      | succ j =>
        simp only [buildRows, List.zip_cons_cons, List.map_cons, rowAssignments,
          List.getD_cons_succ]
        exact ih as (by simpa using hlen) j

/-- C1 (amended): with distinct formatted display names, every table the
classic and classic-limited solvers return keeps every employee out of
Line Buster seats in consecutive slots and out of any one seat for three
consecutive slots; every table the Phoenix limited solver returns carries
the constant Conductor-start note and keeps every employee out of any one
non-Line-Buster seat for three consecutive slots.  (For the Phoenix
limited solver consecutive Line Buster tenure is only a soft penalty, and
its note never records a relaxation, so this is the boundary of the
original claim; `create_schedule_phoenix` itself raises `TypeError`.) -/
theorem c1_tenure_limits_amended (so sc : Option Nat) (input : List EmployeeData)
    (hnodup : (formattedNames input).Nodup) :
    (∀ note rows, create_schedule_backtracking_classic so sc input = .table note rows →
      NoConsecLB rows ∧ NoTripleSeat rows) ∧
    (∀ note rows, create_schedule_classic_limited so sc input = .table note rows →
      NoConsecLB rows ∧ NoTripleSeat rows) ∧
    (∀ note rows, create_schedule_phoenix_limited so sc input = .table note rows →
      note = "NOTE: The Conductor start time rule was broken to generate this schedule." ∧
      NoTripleSeatNonLB rows) := by
  refine ⟨?_, ?_, ?_⟩
  · intro note rows h
    unfold create_schedule_backtracking_classic at h
    dsimp only at h
    split at h
    · cases h
    · split at h
      · cases h
      · rename_i sched hsolve
        injection h with hnote hrows
        subst hrows
        have hacc := solve_classic_accept _ _ _ _ hsolve
        have hchain := classicAccept_chain hacc (fun slot _ => availabilityOf_nodup hnodup)
        have hlen := (classicAccept_length hacc).symm
        constructor
        · intro i e hc
          rcases hc with ⟨h1, h2⟩
          rw [rowAssignments_buildRows _ _ _ hlen] at h1 h2
          exact tchainC_noLB2 hchain i e h1 h2
        · intro i p e hc
          rcases hc with ⟨h1, h2, h3⟩
          rw [rowAssignments_buildRows _ _ _ hlen] at h1 h2 h3
          exact tchainC_no3 hchain i p e h1 h2 h3
  · intro note rows h
    unfold create_schedule_classic_limited at h
    dsimp only at h
    split at h
    · cases h
    · split at h
      · cases h
      · rename_i sched hsolve
        injection h with hnote hrows
        subst hrows
        have hacc := solve_classic_limited_accept _ _ _ _ _ hsolve
        have hchain := classicLimitedAccept_chain hacc
          (fun slot _ => availabilityOf_nodup hnodup)
        have hlen := (classicLimitedAccept_length hacc).symm
        constructor
        · intro i e hc
          rcases hc with ⟨h1, h2⟩
          rw [rowAssignments_buildRows _ _ _ hlen] at h1 h2
          exact tchainC_noLB2 hchain i e h1 h2
        · intro i p e hc
          rcases hc with ⟨h1, h2, h3⟩
          rw [rowAssignments_buildRows _ _ _ hlen] at h1 h2 h3
          exact tchainC_no3 hchain i p e h1 h2 h3
  · intro note rows h
    unfold create_schedule_phoenix_limited at h
    dsimp only at h
    split at h
    · cases h
    · split at h
      · cases h
      · rename_i costSched hsolve
        injection h with hnote hrows
        subst hrows
        have hacc := solve_phoenix_limited_accept _ _ _ _ _ _ hsolve
        have hchain := phoenixLimitedAccept_chain hacc
          (fun slot _ => availabilityOf_nodup hnodup)
        have hlen := (phoenixLimitedAccept_length hacc).symm
        refine ⟨hnote.symm, ?_⟩
        intro i p e hLB hc
        rcases hc with ⟨h1, h2, h3⟩
        rw [rowAssignments_buildRows _ _ _ hlen] at h1 h2 h3
        exact tchainP_no3_nonLB hchain i p e hLB h1 h2 h3

theorem c1_tenure_limits_amended_witness :
    (formattedNames smallInput).Nodup ∧
    ((∀ note rows,
        create_schedule_backtracking_classic none none smallInput = .table note rows →
        NoConsecLB rows ∧ NoTripleSeat rows) ∧
     (∀ note rows,
        create_schedule_classic_limited none none smallInput = .table note rows →
        NoConsecLB rows ∧ NoTripleSeat rows) ∧
     (∀ note rows,
        create_schedule_phoenix_limited none none smallInput = .table note rows →
        note = "NOTE: The Conductor start time rule was broken to generate this schedule." ∧
        NoTripleSeatNonLB rows)) :=
  ⟨by decide, c1_tenure_limits_amended none none smallInput (by decide)⟩

theorem preprocess_empty_of_unparseable {input : List EmployeeData}
    (h : ∀ emp ∈ input, parse_time_input emp.shiftStart = none ∨
      parse_time_input emp.shiftEnd = none) :
    preprocess_employee_data input = [] := by
  induction input with
  | nil => rfl
  | cons emp rest ih =>
    rw [preprocess_cons]
    have hrows : employeeRows emp = [] := by
      unfold employeeRows
      dsimp only
      rcases h emp (List.mem_cons_self _ _) with h' | h'
      · rw [h']
      · rw [h']
        cases parse_time_input emp.shiftStart <;> rfl
    rw [hrows, List.nil_append]
    exact ih (fun e he => h e (List.mem_cons_of_mem _ he))

/-- C9 (amended): an unparseable or missing time string parses to `None`
and drops the interval, and when no employee has both a parseable shift
start and a parseable shift end the five table-building entry points
return the failure string `No employee data to process.` — but
`create_schedule_phoenix_diverse` on such a roster raises `KeyError`
whenever the roster is nonempty, because that failure string is fed to the
CSV re-parse, which has no `Position` column. -/
theorem c9_unparseable_times_amended (so sc : Option Nat) (input : List EmployeeData)
    (h : ∀ emp ∈ input, parse_time_input emp.shiftStart = none ∨
      parse_time_input emp.shiftEnd = none) :
    parse_time_input none = none ∧
    parse_time_input (some "") = none ∧
    create_schedule_backtracking_classic so sc input =
      .failure "No employee data to process." ∧
    create_schedule_classic_limited so sc input =
      .failure "No employee data to process." ∧
    create_schedule_phoenix_limited so sc input =
      .failure "No employee data to process." ∧
    create_schedule_heuristic so sc input =
      .failure "No employee data to process." ∧
    (∀ memo0, create_schedule_phoenix memo0 so sc input =
      .ok (.failure "No employee data to process.")) ∧
    (∀ memo0, create_schedule_phoenix_diverse memo0 so sc input =
      if input.isEmpty then .ok (.failure "No employee data to process.")
      else .error .keyError) := by
  have hpre := preprocess_empty_of_unparseable h
  have hph : ∀ memo0, create_schedule_phoenix memo0 so sc input =
      .ok (.failure "No employee data to process.") := by
    intro memo0
    unfold create_schedule_phoenix
    dsimp only
    rw [hpre]
    rfl
  refine ⟨rfl, rfl, ?_, ?_, ?_, ?_, hph, ?_⟩
  · unfold create_schedule_backtracking_classic
    dsimp only
    rw [hpre]
    rfl
  · unfold create_schedule_classic_limited
    dsimp only
    rw [hpre]
    rfl
  · unfold create_schedule_phoenix_limited
    dsimp only
    rw [hpre]
    rfl
  · unfold create_schedule_heuristic
    dsimp only
    rw [hpre]
    rfl
  · intro memo0
    unfold create_schedule_phoenix_diverse
    rw [hph memo0]
    dsimp only
    have hsub : strHasSub "No employee data to process." "Could not find" = false := by decide
    simp only [hsub, Bool.false_or]

theorem c9_unparseable_times_amended_witness :
    (∀ emp ∈ ghostInput, parse_time_input emp.shiftStart = none ∨
      parse_time_input emp.shiftEnd = none) ∧
    (parse_time_input none = none ∧
     parse_time_input (some "") = none ∧
     create_schedule_backtracking_classic none none ghostInput =
       .failure "No employee data to process." ∧
     create_schedule_classic_limited none none ghostInput =
       .failure "No employee data to process." ∧
     create_schedule_phoenix_limited none none ghostInput =
       .failure "No employee data to process." ∧
     create_schedule_heuristic none none ghostInput =
       .failure "No employee data to process." ∧
     (∀ memo0, create_schedule_phoenix memo0 none none ghostInput =
       .ok (.failure "No employee data to process.")) ∧
     (∀ memo0, create_schedule_phoenix_diverse memo0 none none ghostInput =
       if ghostInput.isEmpty then .ok (.failure "No employee data to process.")
       else .error .keyError)) :=
  ⟨by decide, c9_unparseable_times_amended none none ghostInput (by decide)⟩

theorem mem_insertStr {a x : String} : ∀ {l : List String},
    a ∈ insertStr x l ↔ a = x ∨ a ∈ l := by
  intro l
  induction l with
  | nil => simp [insertStr]
  | cons y ys ih =>
    rw [insertStr]
    split
    · simp [List.mem_cons]
    · simp only [List.mem_cons, ih]
      tauto

theorem nodup_insertStr {x : String} : ∀ {l : List String},
    x ∉ l → l.Nodup → (insertStr x l).Nodup := by
  intro l
  induction l with
  | nil => intro _ _; simp [insertStr]
  | cons y ys ih =>
    intro hx hnd
    rw [insertStr]
    have hnd' := List.nodup_cons.mp hnd
    split
    · exact List.nodup_cons.mpr ⟨hx, hnd⟩
    · refine List.nodup_cons.mpr ⟨?_, ih (fun h => hx (List.mem_cons_of_mem _ h)) hnd'.2⟩
      intro hy
      rcases mem_insertStr.mp hy with h | h
      · exact hx (by rw [← h]; exact List.mem_cons_self _ _)
      · exact hnd'.1 h

theorem mem_foldr_insertStr {a : String} : ∀ {l : List String},
    a ∈ l.foldr insertStr [] ↔ a ∈ l := by
  intro l
  induction l with
  | nil => simp
  | cons x xs ih => simp [List.foldr_cons, mem_insertStr, ih]

theorem nodup_foldr_insertStr : ∀ {l : List String},
    l.Nodup → (l.foldr insertStr []).Nodup := by
  intro l
  induction l with
  | nil => intro _; simp
  | cons x xs ih =>
    intro h
    have h' := List.nodup_cons.mp h
    exact nodup_insertStr (fun hm => h'.1 (mem_foldr_insertStr.mp hm)) (ih h'.2)

theorem mem_firstOccurrences_aux {a : String} : ∀ (l acc : List String),
    a ∈ l.foldl (fun acc t => if t ∈ acc then acc else acc ++ [t]) acc ↔
      a ∈ acc ∨ a ∈ l := by
  intro l
  induction l with
  | nil => intro acc; simp
  | cons x xs ih =>
    intro acc
    rw [List.foldl_cons]
    by_cases hx : x ∈ acc
    · rw [if_pos hx, ih]
      constructor
      · rintro (h | h)
        · exact Or.inl h
        · exact Or.inr (List.mem_cons_of_mem _ h)
      · rintro (h | h)
        · exact Or.inl h
        · rcases List.mem_cons.mp h with h | h
          · exact Or.inl (h ▸ hx)
          · exact Or.inr h
    · rw [if_neg hx, ih]
      constructor
      · rintro (h | h)
        · rcases List.mem_append.mp h with h | h
          · exact Or.inl h
          · exact Or.inr (by simp [List.mem_singleton.mp h])
        · exact Or.inr (List.mem_cons_of_mem _ h)
      · rintro (h | h)
        · exact Or.inl (List.mem_append.mpr (Or.inl h))
        · rcases List.mem_cons.mp h with h | h
          · exact Or.inl (List.mem_append.mpr (Or.inr (by simp [h])))
          · exact Or.inr h

theorem mem_firstOccurrences {a : String} {l : List String} :
    a ∈ firstOccurrences l ↔ a ∈ l := by
  rw [firstOccurrences, mem_firstOccurrences_aux]
  simp

theorem nodup_firstOccurrences_aux : ∀ (l acc : List String), acc.Nodup →
    (l.foldl (fun acc t => if t ∈ acc then acc else acc ++ [t]) acc).Nodup := by
  intro l
  induction l with
  | nil => intro acc h; simpa using h
  | cons x xs ih =>
    intro acc h
    rw [List.foldl_cons]
    by_cases hx : x ∈ acc
    · rw [if_pos hx]
      exact ih acc h
    · rw [if_neg hx]
      refine ih _ ?_
      rw [List.nodup_append]
      exact ⟨h, List.nodup_singleton x, by simpa using hx⟩

theorem nodup_firstOccurrences (l : List String) : (firstOccurrences l).Nodup :=
  nodup_firstOccurrences_aux l [] List.nodup_nil

theorem sortedSet_nodup (xs : List String) : (sortedSet xs).Nodup :=
  nodup_foldr_insertStr (nodup_firstOccurrences xs)

theorem mem_sortedSet {a : String} {xs : List String} : a ∈ sortedSet xs ↔ a ∈ xs := by
  rw [sortedSet, mem_foldr_insertStr, mem_firstOccurrences]

theorem count_sortedSet (xs : List String) (e : String) :
    (sortedSet xs).count e = if e ∈ xs then 1 else 0 := by
  by_cases h : e ∈ xs
  · rw [if_pos h]
    exact List.count_eq_one_of_mem (sortedSet_nodup xs) (mem_sortedSet.mpr h)
  · rw [if_neg h]
    exact List.count_eq_zero.mpr (fun hm => h (mem_sortedSet.mp hm))

theorem mem_breaksAt {df : List SlotRow} {t e : String} :
    e ∈ breaksAt df t ↔ hasBreakRow df t e = true := by
  simp only [breaksAt, hasBreakRow, List.mem_map, List.mem_filter, List.any_eq_true,
    Bool.and_eq_true, beq_iff_eq]
  constructor
  · rintro ⟨r, ⟨hr, ht, hb⟩, rfl⟩
    exact ⟨r, hr, ⟨ht, rfl⟩, hb⟩
  · rintro ⟨r, hr, ⟨ht, he⟩, hb⟩
    exact ⟨r, ⟨hr, ht, hb⟩, he⟩

theorem mem_toffTLAt {df : List SlotRow} {t e : String} :
    e ∈ toffTLAt df t ↔ hasToffRow df t e = true := by
  simp only [toffTLAt, hasToffRow, List.mem_map, List.mem_filter, List.any_eq_true,
    Bool.and_eq_true, beq_iff_eq]
  constructor
  · rintro ⟨r, ⟨hr, ht, hb⟩, rfl⟩
    exact ⟨r, hr, ⟨ht, rfl⟩, hb⟩
  · rintro ⟨r, hr, ⟨ht, he⟩, hb⟩
    exact ⟨r, ⟨hr, ht, hb⟩, he⟩

theorem mem_availabilityOf {df : List SlotRow} {t e : String} :
    e ∈ availabilityOf df t ↔ hasFreeRow df t e = true := by
  simp only [availabilityOf, hasFreeRow, List.mem_map, List.mem_filter, List.any_eq_true,
    Bool.and_eq_true, beq_iff_eq, Bool.not_eq_true']
  constructor
  · rintro ⟨r, ⟨hr, ⟨ht, hb⟩, hto⟩, rfl⟩
    exact ⟨r, hr, ⟨⟨ht, rfl⟩, hb⟩, hto⟩
  · rintro ⟨r, hr, ⟨⟨ht, he⟩, hb⟩, hto⟩
    exact ⟨r, ⟨hr, ⟨ht, hb⟩, hto⟩, he⟩

theorem count_perm_avail {df : List SlotRow} {t e : String} {p : List String}
    (hnd : (availabilityOf df t).Nodup) (hp : p ∈ pyPermutations (availabilityOf df t)) :
    p.count e = if hasFreeRow df t e = true then 1 else 0 := by
  have hperm := pyPermutations_perm hp
  rw [← hperm.count_eq]
  by_cases h : hasFreeRow df t e = true
  · rw [if_pos h]
    exact List.count_eq_one_of_mem hnd (mem_availabilityOf.mpr h)
  · rw [if_neg h]
    exact List.count_eq_zero.mpr (fun hm => h (mem_availabilityOf.mp hm))

theorem mem_zip_exists_index {α β : Type} :
    ∀ {l1 : List α} {l2 : List β} {x : α × β}, x ∈ l1.zip l2 →
      ∃ i : Nat, l1[i]? = some x.1 ∧ l2[i]? = some x.2 := by
  intro l1
  induction l1 with
  | nil => intro l2 x h; simp [List.zip] at h
  | cons a as ih =>
    intro l2 x h
    cases l2 with
    | nil => simp [List.zip] at h
    | cons b bs =>
      rw [List.zip_cons_cons] at h
      rcases List.mem_cons.mp h with h | h
      · exact ⟨0, by simp [h], by simp [h]⟩
      · obtain ⟨i, h1, h2⟩ := ih h
        exact ⟨i + 1, by simpa using h1, by simpa using h2⟩

theorem classicAccept_row {availability : String → List String}
    {slots : List String} {st : CStates} {sched : Sched}
    (h : ClassicAccept availability slots st sched) :
    ∀ (i : Nat) (t : String) (a : Assignment), slots[i]? = some t → sched[i]? = some a →
      ∃ p, p ∈ pyPermutations (availability t) ∧
        (WORK_POSITIONS.take (availability t).length).length = (availability t).length ∧
        a = (WORK_POSITIONS.take (availability t).length).zip p := by
  induction h with
  | nil st => intro i t a h1 h2; simp at h1
  | cons slot rest st p s' hp hlen hv hrest ih =>
    intro i t a h1 h2
    cases i with
    | zero =>
      rw [List.getElem?_cons_zero] at h1 h2
      injection h1 with h1
      injection h2 with h2
      subst h1
      exact ⟨p, hp, hlen, h2.symm⟩
    | succ j =>
      rw [List.getElem?_cons_succ] at h1 h2
      exact ih j t a h1 h2

theorem classicLimitedAccept_row {availability : String → List String}
    {slots : List String} {st : CStates} {sched : Sched}
    (h : ClassicLimitedAccept availability slots st sched) :
    ∀ (i : Nat) (t : String) (a : Assignment), slots[i]? = some t → sched[i]? = some a →
      ∃ p, p ∈ pyPermutations (availability t) ∧
        (WORK_POSITIONS.take (availability t).length).length = (availability t).length ∧
        a = (WORK_POSITIONS.take (availability t).length).zip p := by
  induction h with
  | nil st => intro i t a h1 h2; simp at h1
  | cons slot rest st p s' k hp hlen hscan hrest ih =>
    intro i t a h1 h2
    cases i with
    | zero =>
      rw [List.getElem?_cons_zero] at h1 h2
      injection h1 with h1
      injection h2 with h2
      subst h1
      exact ⟨p, hp, hlen, h2.symm⟩
    | succ j =>
      rw [List.getElem?_cons_succ] at h1 h2
      exact ih j t a h1 h2

theorem phoenixLimitedAccept_row {availability : String → List String}
    {slots : List String} {st : PStates} {sched : Sched}
    (h : PhoenixLimitedAccept availability slots st sched) :
    ∀ (i : Nat) (t : String) (a : Assignment), slots[i]? = some t → sched[i]? = some a →
      ∃ p, p ∈ pyPermutations (availability t) ∧
        (WORK_POSITIONS.take (availability t).length).length = (availability t).length ∧
        a = (WORK_POSITIONS.take (availability t).length).zip p := by
  induction h with
  | nil st => intro i t a h1 h2; simp at h1
  | cons slot rest st p s' hp hlen hviol hrest ih =>
    intro i t a h1 h2
    cases i with
    | zero =>
      rw [List.getElem?_cons_zero] at h1 h2
      injection h1 with h1
      injection h2 with h2
      subst h1
      exact ⟨p, hp, hlen, h2.symm⟩
    | succ j =>
      rw [List.getElem?_cons_succ] at h1 h2
      exact ih j t a h1 h2

theorem rowListing_of_perm {df : List SlotRow} {t : String} {a : Assignment}
    (hnd : (availabilityOf df t).Nodup)
    (hp : ∃ p, p ∈ pyPermutations (availabilityOf df t) ∧
      (WORK_POSITIONS.take (availabilityOf df t).length).length =
        (availabilityOf df t).length ∧
      a = (WORK_POSITIONS.take (availabilityOf df t).length).zip p) :
    RowListingOK df
      { time := t, assignments := a,
        breakList := sortedSet (breaksAt df t),
        toffTLList := sortedSet (toffTLAt df t) } := by
  obtain ⟨p, hp, hlen, rfl⟩ := hp
  intro e
  dsimp only
  have hperm := pyPermutations_perm hp
  have hlen' : (WORK_POSITIONS.take (availabilityOf df t).length).length = p.length :=
    hlen.trans hperm.length_eq
  rw [map_snd_zip_eq _ _ hlen', count_perm_avail hnd hp, count_sortedSet, count_sortedSet]
  simp only [mem_breaksAt, mem_toffTLAt]

/-- C5 (amended): with distinct formatted display names, in every table the
three working solvers return, each employee's listing count across the
competitive seats, the Break cell and the ToffTL cell of a row equals
availability + on-break + in-training indicators at that time — so an
employee on shift is listed exactly once, except that an employee whose
break and training intervals both cover the slot is flagged by both
indicators and is listed twice, once in Break and once in ToffTL. -/
theorem c5_slot_listing_amended (so sc : Option Nat) (input : List EmployeeData)
    (hnodup : (formattedNames input).Nodup) :
    (∀ note rows, create_schedule_backtracking_classic so sc input = .table note rows →
      ∀ r ∈ rows, RowListingOK (preprocess_employee_data input) r) ∧
    (∀ note rows, create_schedule_classic_limited so sc input = .table note rows →
      ∀ r ∈ rows, RowListingOK (preprocess_employee_data input) r) ∧
    (∀ note rows, create_schedule_phoenix_limited so sc input = .table note rows →
      ∀ r ∈ rows, RowListingOK (preprocess_employee_data input) r) := by
  refine ⟨?_, ?_, ?_⟩
  · intro note rows h
    unfold create_schedule_backtracking_classic at h
    dsimp only at h
    split at h
    · cases h
    · split at h
      · cases h
      · rename_i sched hsolve
        injection h with hnote hrows
        subst hrows
        have hacc := solve_classic_accept _ _ _ _ hsolve
        intro r hr
        unfold buildRows at hr
        rw [List.mem_map] at hr
        obtain ⟨ta, hta, rfl⟩ := hr
        obtain ⟨i, h1, h2⟩ := mem_zip_exists_index hta
        exact rowListing_of_perm (availabilityOf_nodup hnodup)
          (classicAccept_row hacc i ta.1 ta.2 h1 h2)
  · intro note rows h
    unfold create_schedule_classic_limited at h
    dsimp only at h
    split at h
    · cases h
    · split at h
      · cases h
      · rename_i sched hsolve
        injection h with hnote hrows
        subst hrows
        have hacc := solve_classic_limited_accept _ _ _ _ _ hsolve
        intro r hr
        unfold buildRows at hr
        rw [List.mem_map] at hr
        obtain ⟨ta, hta, rfl⟩ := hr
        obtain ⟨i, h1, h2⟩ := mem_zip_exists_index hta
        exact rowListing_of_perm (availabilityOf_nodup hnodup)
          (classicLimitedAccept_row hacc i ta.1 ta.2 h1 h2)
  · intro note rows h
    unfold create_schedule_phoenix_limited at h
    dsimp only at h
    split at h
    · cases h
    · split at h
      · cases h
      · rename_i costSched hsolve
        injection h with hnote hrows
        subst hrows
        have hacc := solve_phoenix_limited_accept _ _ _ _ _ _ hsolve
        intro r hr
        unfold buildRows at hr
        rw [List.mem_map] at hr
        obtain ⟨ta, hta, rfl⟩ := hr
        obtain ⟨i, h1, h2⟩ := mem_zip_exists_index hta
        exact rowListing_of_perm (availabilityOf_nodup hnodup)
          (phoenixLimitedAccept_row hacc i ta.1 ta.2 h1 h2)

theorem c5_slot_listing_amended_witness :
    (formattedNames smallInput).Nodup ∧
    ((∀ note rows,
        create_schedule_backtracking_classic none none smallInput = .table note rows →
        ∀ r ∈ rows, RowListingOK (preprocess_employee_data smallInput) r) ∧
     (∀ note rows,
        create_schedule_classic_limited none none smallInput = .table note rows →
        ∀ r ∈ rows, RowListingOK (preprocess_employee_data smallInput) r) ∧
     (∀ note rows,
        create_schedule_phoenix_limited none none smallInput = .table note rows →
        ∀ r ∈ rows, RowListingOK (preprocess_employee_data smallInput) r)) :=
  ⟨by decide, c5_slot_listing_amended none none smallInput (by decide)⟩

theorem WFdf_spec {df : Df} (h : WFdf df = true) :
    df.cells.length = df.index.length ∧
    (∀ row ∈ df.cells, row.length = df.columns.length) ∧
    (∀ e ∈ dfKeys df, ∀ i, i < df.columns.length →
      ((List.range df.index.length).filter
        (fun j => (df.cells.getD j []).getD i "" == e)).length ≤ 1) ∧
    df.index.Nodup := by
  unfold WFdf at h
  simp only [Bool.and_eq_true, beq_iff_eq, List.all_eq_true, decide_eq_true_eq,
    List.mem_range] at h
  exact ⟨h.1.1.1, fun row hr => h.1.1.2 row hr,
    fun e he i hi => h.1.2 e he i hi, h.2⟩

theorem getD_set_ne {α : Type} {l : List α} {t i : Nat} (h : t ≠ i) (v : α) (d : α) :
    (l.set t v).getD i d = l.getD i d := by
  rw [List.getD_eq_getElem?_getD, List.getElem?_set_ne h, ← List.getD_eq_getElem?_getD]

theorem getD_set_self {α : Type} {l : List α} {t : Nat} (h : t < l.length) (v : α) (d : α) :
    (l.set t v).getD t d = v := by
  rw [List.getD_eq_getElem?_getD, List.getElem?_set_self h]
  rfl

theorem dfSetCell_cells (df : Df) (pos : String) (t : Nat) (v : String) :
    (dfSetCell df pos t v).cells =
      df.cells.set (df.index.indexOf pos)
        ((df.cells.getD (df.index.indexOf pos) []).set t v) := rfl

theorem swap_cells_val (df : Df) (pos1 pos2 emp1 emp2 : String) (t : Nat)
    (hlen : df.cells.length = df.index.length)
    (hrect : ∀ row ∈ df.cells, row.length = df.columns.length)
    (hp1 : pos1 ∈ df.index) (hp2 : pos2 ∈ df.index) (hne : pos1 ≠ pos2)
    (ht : t < df.columns.length) :
    (∀ j i, j ≠ df.index.indexOf pos1 → j ≠ df.index.indexOf pos2 →
      (((dfSetCell (dfSetCell df pos1 t emp2) pos2 t emp1).cells.getD j []).getD i "") =
        ((df.cells.getD j []).getD i "")) ∧
    (∀ i, i ≠ t →
      (((dfSetCell (dfSetCell df pos1 t emp2) pos2 t emp1).cells.getD
          (df.index.indexOf pos1) []).getD i "") =
        ((df.cells.getD (df.index.indexOf pos1) []).getD i "")) ∧
    (∀ i, i ≠ t →
      (((dfSetCell (dfSetCell df pos1 t emp2) pos2 t emp1).cells.getD
          (df.index.indexOf pos2) []).getD i "") =
        ((df.cells.getD (df.index.indexOf pos2) []).getD i "")) ∧
    (((dfSetCell (dfSetCell df pos1 t emp2) pos2 t emp1).cells.getD
        (df.index.indexOf pos1) []).getD t "") = emp2 ∧
    (((dfSetCell (dfSetCell df pos1 t emp2) pos2 t emp1).cells.getD
        (df.index.indexOf pos2) []).getD t "") = emp1 := by
  have hj1lt : df.index.indexOf pos1 < df.index.length := List.indexOf_lt_length.mpr hp1
  have hj2lt : df.index.indexOf pos2 < df.index.length := List.indexOf_lt_length.mpr hp2
  have hj12 : df.index.indexOf pos1 ≠ df.index.indexOf pos2 :=
    fun hh => hne ((List.indexOf_inj hp1 hp2).mp hh)
  have hc1 : df.index.indexOf pos1 < df.cells.length := by omega
  have hc2 : df.index.indexOf pos2 < df.cells.length := by omega
  have hrow1 : (df.cells.getD (df.index.indexOf pos1) []).length = df.columns.length := by
    apply hrect
    rw [List.getD_eq_getElem?_getD, List.getElem?_eq_getElem hc1]
    exact List.getElem_mem hc1
  have hrow2 : (df.cells.getD (df.index.indexOf pos2) []).length = df.columns.length := by
    apply hrect
    rw [List.getD_eq_getElem?_getD, List.getElem?_eq_getElem hc2]
    exact List.getElem_mem hc2
  have hmid : (df.cells.set (df.index.indexOf pos1)
        ((df.cells.getD (df.index.indexOf pos1) []).set t emp2)).getD
        (df.index.indexOf pos2) [] = df.cells.getD (df.index.indexOf pos2) [] := by
    rw [List.getD_eq_getElem?_getD, List.getElem?_set_ne hj12,
      ← List.getD_eq_getElem?_getD]
  have hcells : (dfSetCell (dfSetCell df pos1 t emp2) pos2 t emp1).cells =
      (df.cells.set (df.index.indexOf pos1)
        ((df.cells.getD (df.index.indexOf pos1) []).set t emp2)).set
        (df.index.indexOf pos2) ((df.cells.getD (df.index.indexOf pos2) []).set t emp1) := by
    rw [dfSetCell_cells, dfSetCell_cells,
      show (dfSetCell df pos1 t emp2).index = df.index from rfl, hmid]
  rw [hcells]
  have hget1 : ((df.cells.set (df.index.indexOf pos1)
        ((df.cells.getD (df.index.indexOf pos1) []).set t emp2)).set
        (df.index.indexOf pos2)
        ((df.cells.getD (df.index.indexOf pos2) []).set t emp1)).getD
        (df.index.indexOf pos1) [] =
      (df.cells.getD (df.index.indexOf pos1) []).set t emp2 := by
    rw [List.getD_eq_getElem?_getD, List.getElem?_set_ne (Ne.symm hj12),
      List.getElem?_set_self (by simpa using hc1)]
    rfl
  have hget2 : ((df.cells.set (df.index.indexOf pos1)
        ((df.cells.getD (df.index.indexOf pos1) []).set t emp2)).set
        (df.index.indexOf pos2)
        ((df.cells.getD (df.index.indexOf pos2) []).set t emp1)).getD
        (df.index.indexOf pos2) [] =
      (df.cells.getD (df.index.indexOf pos2) []).set t emp1 := by
    rw [List.getD_eq_getElem?_getD,
      List.getElem?_set_self (by simpa using hc2)]
    rfl
  refine ⟨?_, ?_, ?_, ?_, ?_⟩
  · intro j i hj1 hj2
    congr 1
    rw [List.getD_eq_getElem?_getD, List.getElem?_set_ne (Ne.symm hj2),
      List.getElem?_set_ne (Ne.symm hj1), ← List.getD_eq_getElem?_getD]
  · intro i hi
    rw [hget1, getD_set_ne (Ne.symm hi)]
  · intro i hi
    rw [hget2, getD_set_ne (Ne.symm hi)]
  · rw [hget1, getD_set_self (by omega)]
  · rw [hget2, getD_set_self (by omega)]

theorem filterMap_colMajor (df : Df) (e : String) :
    (colMajorCells df).filterMap
      (fun c => if c.2.2 == e then some (c.1, c.2.1) else none) =
      (List.range df.columns.length).flatMap (colEntries df e) := by
  unfold colMajorCells
  rw [List.filterMap_flatMap]
  apply List.flatMap_congr
  intro i hi
  rw [List.filterMap_filterMap]
  unfold colEntries
  apply List.filterMap_congr
  intro j hj
  cases hg : df.index.get? j with
  | none => rfl
  | some pos =>
    dsimp only
    split
    · rfl
    · rfl

theorem lookup_map_keys {β : Type} (f : String → β) :
    ∀ (l : List String) (e : String),
      (l.map (fun k => (k, f k))).lookup e = if e ∈ l then some (f e) else none := by
  intro l
  induction l with
  | nil => intro e; simp
  | cons x xs ih =>
    intro e
    by_cases he : e = x
    · subst he
      simp [List.lookup]
    · rw [List.map_cons]
      show (match e == x with
        | true => some (f x)
        | false => (xs.map (fun k => (k, f k))).lookup e) = _
      rw [show (e == x) = false from beq_eq_false_iff_ne.mpr he]
      show (xs.map (fun k => (k, f k))).lookup e = _
      rw [ih e]
      simp [List.mem_cons, he]

theorem colMajorCells_emp_mem_keys {df : Df}
    (hlen : df.cells.length = df.index.length)
    (hrect : ∀ row ∈ df.cells, row.length = df.columns.length) :
    ∀ c ∈ colMajorCells df, c.2.2 ∈ dfKeys df := by
  intro c hc
  unfold colMajorCells at hc
  rw [List.mem_flatMap] at hc
  obtain ⟨i, hi, hc⟩ := hc
  rw [List.mem_filterMap] at hc
  obtain ⟨j, hj, hc⟩ := hc
  rw [List.mem_range] at hi hj
  cases hg : df.index.get? j with
  | none => rw [hg] at hc; cases hc
  | some pos =>
    rw [hg] at hc
    dsimp only at hc
    split at hc
    · rename_i hemp
      injection hc with hc
      rw [← hc]
      dsimp only
      unfold dfKeys
      rw [mem_firstOccurrences, List.mem_filter]
      have hjc : j < df.cells.length := by omega
      have hmemrow : df.cells.getD j [] ∈ df.cells := by
        rw [List.getD_eq_getElem?_getD, List.getElem?_eq_getElem hjc]
        exact List.getElem_mem hjc
      have hrow : (df.cells.getD j []).length = df.columns.length := hrect _ hmemrow
      refine ⟨?_, by simpa using hemp⟩
      rw [List.mem_flatten]
      refine ⟨df.cells.getD j [], hmemrow, ?_⟩
      have hir : i < (df.cells.getD j []).length := by omega
      generalize df.cells.getD j [] = row at hir ⊢
      rw [List.getD_eq_getElem?_getD, List.getElem?_eq_getElem hir]
      exact List.getElem_mem hir
    · cases hc

theorem mapGet_buildMap {df : Df}
    (hlen : df.cells.length = df.index.length)
    (hrect : ∀ row ∈ df.cells, row.length = df.columns.length) (e : String) :
    mapGet (buildMap df) e = (List.range df.columns.length).flatMap (colEntries df e) := by
  unfold mapGet buildMap
  rw [lookup_map_keys]
  by_cases he : e ∈ dfKeys df
  · rw [if_pos he]
    show (colMajorCells df).filterMap
      (fun c => if c.2.2 == e then some (c.1, c.2.1) else none) = _
    exact filterMap_colMajor df e
  · rw [if_neg he]
    show ([] : List MapEntry) = _
    rw [← filterMap_colMajor df e]
    symm
    rw [List.filterMap_eq_nil_iff]
    intro c hc
    rw [if_neg]
    intro hce
    rw [beq_iff_eq] at hce
    exact he (hce ▸ colMajorCells_emp_mem_keys hlen hrect c hc)

theorem filterMap_if {α β : Type} (p : α → Bool) (g : α → β) :
    ∀ (l : List α),
      l.filterMap (fun a => if p a then some (g a) else none) = (l.filter p).map g := by
  intro l
  induction l with
  | nil => rfl
  | cons x xs ih =>
    rw [List.filterMap_cons, List.filter_cons]
    by_cases hx : p x = true
    · rw [if_pos hx, if_pos hx, List.map_cons, ih]
    · rw [if_neg hx, if_neg hx, ih]

theorem colEntries_eq {df : Df} {e : String} (he : e ≠ "") (i : Nat) :
    colEntries df e i =
      ((List.range df.index.length).filter
        (fun j => (df.cells.getD j []).getD i "" == e)).map
        (fun j => (i, df.index.getD j "")) := by
  unfold colEntries
  rw [← filterMap_if]
  apply List.filterMap_congr
  intro j hj
  rw [List.mem_range] at hj
  have hg : df.index.get? j = some (df.index.getD j "") := by
    rw [List.get?_eq_getElem?, List.getElem?_eq_getElem hj,
      List.getD_eq_getElem?_getD, List.getElem?_eq_getElem hj]
    rfl
  rw [hg]
  dsimp only
  by_cases hce : ((df.cells.getD j []).getD i "" == e) = true
  · rw [beq_iff_eq] at hce
    rw [hce, if_pos (by simpa using he), if_pos (by simp)]
  · rw [if_neg hce]
    split <;> rfl

theorem filter_eq_singleton_of {l : List Nat} {p : Nat → Bool} {j0 : Nat}
    (h1 : (l.filter p).length ≤ 1) (h2 : j0 ∈ l.filter p) : l.filter p = [j0] := by
  cases hf : l.filter p with
  | nil => rw [hf] at h2; cases h2
  | cons x rest =>
    cases rest with
    | nil =>
      rw [hf] at h2
      rcases List.mem_singleton.mp h2 with rfl
      rfl
    | cons y rest2 => rw [hf] at h1; simp at h1

theorem lookup_mapUpdatePos_ne {e0 e : String} (h : e ≠ e0) (t : Nat) (p : String) :
    ∀ {m : SwapMap}, (mapUpdatePos m e0 t p).lookup e = m.lookup e := by
  intro m
  induction m with
  | nil => rfl
  | cons kv rest ih =>
    unfold mapUpdatePos
    rw [List.map_cons]
    by_cases hk : kv.1 = e0
    · rw [if_pos (by simpa using hk)]
      show (match e == kv.1 with
        | true => some (kv.2.map (fun (it : MapEntry) => if it.1 == t then (it.1, p) else it))
        | false => (rest.map _).lookup e) = _
      rw [show (e == kv.1) = false from beq_eq_false_iff_ne.mpr (hk ▸ h)]
      show (mapUpdatePos rest e0 t p).lookup e = _
      rw [ih]
      cases hkv : kv with
      | mk k v =>
        show _ = (match e == k with
          | true => some v
          | false => rest.lookup e)
        rw [show (e == k) = false from beq_eq_false_iff_ne.mpr
          (by rw [hkv] at hk; simp only at hk; rw [hk]; exact h)]
    · rw [if_neg (by simpa using hk)]
      cases hkv : kv with
      | mk k v =>
        show (match e == k with
          | true => some v
          | false => (mapUpdatePos rest e0 t p).lookup e) =
          (match e == k with
          | true => some v
          | false => rest.lookup e)
        cases e == k with
        | true => rfl
        | false => exact ih

theorem lookup_mapUpdatePos_self (e0 : String) (t : Nat) (p : String) :
    ∀ {m : SwapMap}, (mapUpdatePos m e0 t p).lookup e0 =
      (m.lookup e0).map
        (fun entries => entries.map (fun it => if it.1 == t then (it.1, p) else it)) := by
  intro m
  induction m with
  | nil => rfl
  | cons kv rest ih =>
    unfold mapUpdatePos
    rw [List.map_cons]
    by_cases hk : kv.1 = e0
    · rw [if_pos (by simpa using hk)]
      show (match e0 == kv.1 with
        | true => some (kv.2.map (fun (it : MapEntry) => if it.1 == t then (it.1, p) else it))
        | false => (rest.map _).lookup e0) = _
      rw [show (e0 == kv.1) = true from beq_iff_eq.mpr hk.symm]
      cases hkv : kv with
      | mk k v =>
        show _ = Option.map _ (match e0 == k with
          | true => some v
          | false => rest.lookup e0)
        rw [show (e0 == k) = true from beq_iff_eq.mpr (by rw [hkv] at hk; exact hk.symm)]
        rfl
    · rw [if_neg (by simpa using hk)]
      cases hkv : kv with
      | mk k v =>
        show (match e0 == k with
          | true => some v
          | false => (mapUpdatePos rest e0 t p).lookup e0) =
          Option.map _ (match e0 == k with
          | true => some v
          | false => rest.lookup e0)
        rw [show (e0 == k) = false from beq_eq_false_iff_ne.mpr
          (by rw [hkv] at hk; exact fun hh => hk hh.symm)]
        exact ih

theorem mapGet_mapUpdatePos_ne {m : SwapMap} {e0 e : String} (h : e ≠ e0) (t : Nat)
    (p : String) : mapGet (mapUpdatePos m e0 t p) e = mapGet m e := by
  unfold mapGet
  rw [lookup_mapUpdatePos_ne h]

theorem mapGet_mapUpdatePos_self (m : SwapMap) (e0 : String) (t : Nat) (p : String) :
    mapGet (mapUpdatePos m e0 t p) e0 =
      (mapGet m e0).map (fun it => if it.1 == t then (it.1, p) else it) := by
  unfold mapGet
  rw [lookup_mapUpdatePos_self]
  cases m.lookup e0 with
  | none => rfl
  | some v => rfl

theorem val_mem_dfKeys {df : Df}
    (hlen : df.cells.length = df.index.length)
    (hrect : ∀ row ∈ df.cells, row.length = df.columns.length)
    {j i : Nat} (hj : j < df.index.length) (hi : i < df.columns.length)
    (hne : (df.cells.getD j []).getD i "" ≠ "") :
    (df.cells.getD j []).getD i "" ∈ dfKeys df := by
  unfold dfKeys
  rw [mem_firstOccurrences, List.mem_filter]
  have hjc : j < df.cells.length := by omega
  have hmemrow : df.cells.getD j [] ∈ df.cells := by
    rw [List.getD_eq_getElem?_getD, List.getElem?_eq_getElem hjc]
    exact List.getElem_mem hjc
  have hrow : (df.cells.getD j []).length = df.columns.length := hrect _ hmemrow
  refine ⟨?_, by simpa using hne⟩
  rw [List.mem_flatten]
  refine ⟨df.cells.getD j [], hmemrow, ?_⟩
  have hir : i < (df.cells.getD j []).length := by omega
  generalize df.cells.getD j [] = row at hir ⊢
  rw [List.getD_eq_getElem?_getD, List.getElem?_eq_getElem hir]
  exact List.getElem_mem hir

theorem colEntries_fst {df : Df} {e : String} {i : Nat} :
    ∀ x ∈ colEntries df e i, x.1 = i := by
  intro x hx
  unfold colEntries at hx
  rw [List.mem_filterMap] at hx
  obtain ⟨j, hj, hx⟩ := hx
  cases hg : df.index.get? j with
  | none => rw [hg] at hx; cases hx
  | some pos =>
    rw [hg] at hx
    dsimp only at hx
    split at hx
    · split at hx
      · injection hx with hx
        rw [← hx]
      · cases hx
    · cases hx

theorem colEntries_empty_name (df : Df) (i : Nat) : colEntries df "" i = [] := by
  unfold colEntries
  rw [List.filterMap_eq_nil_iff]
  intro j hj
  cases hg : df.index.get? j with
  | none => rfl
  | some pos =>
    dsimp only
    split
    · rename_i hne
      rw [if_neg]
      intro hh
      rw [beq_iff_eq] at hh
      rw [hh] at hne
      simp at hne
    · rfl

theorem colEntries_congr {df df' : Df} (hidx : df'.index = df.index) {e : String} {i : Nat}
    (hval : ∀ j, j < df.index.length →
      (df'.cells.getD j []).getD i "" = (df.cells.getD j []).getD i "") :
    colEntries df' e i = colEntries df e i := by
  unfold colEntries
  rw [hidx]
  apply List.filterMap_congr
  intro j hj
  rw [List.mem_range] at hj
  rw [hval j hj]

theorem filter_beq_range {j2 : Nat} : ∀ {n : Nat}, j2 < n →
    (List.range n).filter (fun j => j == j2) = [j2] := by
  intro n
  induction n with
  | zero => intro h; omega
  | succ k ih =>
    intro h
    rw [List.range_succ, List.filter_append]
    by_cases hj : j2 < k
    · rw [ih hj]
      have : (k == j2) = false := beq_eq_false_iff_ne.mpr (by omega)
      simp [List.filter_cons, this]
    · have hk : j2 = k := by omega
      subst hk
      have hnil : (List.range j2).filter (fun j => j == j2) = [] := by
        rw [List.filter_eq_nil_iff]
        intro j hj
        rw [List.mem_range] at hj
        simp only [beq_iff_eq]
        omega
      simp [hnil, List.filter_cons]

theorem index_getD_indexOf {l : List String} {pos : String} (h : pos ∈ l) :
    l.getD (l.indexOf pos) "" = pos := by
  have hlt : l.indexOf pos < l.length := List.indexOf_lt_length.mpr h
  rw [List.getD_eq_getElem?_getD, List.getElem?_eq_getElem hlt]
  show l[l.indexOf pos] = pos
  exact List.getElem_indexOf hlt

theorem getD_mem {α : Type} {l : List α} {n : Nat} (h : n < l.length) (d : α) :
    l.getD n d ∈ l := by
  rw [List.getD_eq_getElem?_getD, List.getElem?_eq_getElem h]
  exact List.getElem_mem h

theorem mem_set_elim {α : Type} {l : List α} {n : Nat} {a row : α}
    (h : row ∈ l.set n a) : row = a ∨ row ∈ l := by
  rw [List.mem_iff_getElem] at h
  obtain ⟨k, hk, hrow⟩ := h
  rw [List.getElem_set] at hrow
  split at hrow
  · exact Or.inl hrow.symm
  · right
    rw [← hrow]
    exact List.getElem_mem (by simpa using hk)

theorem swap_preserves (df : Df) (m : SwapMap) (pos1 pos2 emp1 emp2 : String) (t : Nat)
    (hWF : WFdf df = true)
    (hp1 : pos1 ∈ df.index) (hp2 : pos2 ∈ df.index) (hne : pos1 ≠ pos2)
    (ht : t < df.columns.length)
    (hc1 : dfCell df pos1 t = emp1) (hc2 : dfCell df pos2 t = emp2)
    (he1 : emp1 ≠ "") (he2 : emp2 ≠ "") (hee : emp2 ≠ emp1)
    (hI : ∀ e, mapGet m e = mapGet (buildMap df) e) :
    WFdf (dfSetCell (dfSetCell df pos1 t emp2) pos2 t emp1) = true ∧
    (∀ e, mapGet (mapUpdatePos (mapUpdatePos m emp1 t pos2) emp2 t pos1) e =
      mapGet (buildMap (dfSetCell (dfSetCell df pos1 t emp2) pos2 t emp1)) e) := by
  obtain ⟨hlen, hrect, huniq, hnodup⟩ := WFdf_spec hWF
  obtain ⟨hvother, hv1ne, hv2ne, hv1t, hv2t⟩ :=
    swap_cells_val df pos1 pos2 emp1 emp2 t hlen hrect hp1 hp2 hne ht
  have hj1lt : df.index.indexOf pos1 < df.index.length := List.indexOf_lt_length.mpr hp1
  have hj2lt : df.index.indexOf pos2 < df.index.length := List.indexOf_lt_length.mpr hp2
  have hj12 : df.index.indexOf pos1 ≠ df.index.indexOf pos2 :=
    fun hh => hne ((List.indexOf_inj hp1 hp2).mp hh)
  have hval1 : (df.cells.getD (df.index.indexOf pos1) []).getD t "" = emp1 := hc1
  have hval2 : (df.cells.getD (df.index.indexOf pos2) []).getD t "" = emp2 := hc2
  have hidx : (dfSetCell (dfSetCell df pos1 t emp2) pos2 t emp1).index = df.index := rfl
  have hcols : (dfSetCell (dfSetCell df pos1 t emp2) pos2 t emp1).columns = df.columns := rfl
  have hclen : (dfSetCell (dfSetCell df pos1 t emp2) pos2 t emp1).cells.length
      = df.cells.length := by
    rw [dfSetCell_cells, dfSetCell_cells]
    simp
  have hk1 : emp1 ∈ dfKeys df := by
    rw [← hval1]
    exact val_mem_dfKeys hlen hrect hj1lt ht (by rw [hval1]; exact he1)
  have hk2 : emp2 ∈ dfKeys df := by
    rw [← hval2]
    exact val_mem_dfKeys hlen hrect hj2lt ht (by rw [hval2]; exact he2)
  have hfil1 : (List.range df.index.length).filter
      (fun j => (df.cells.getD j []).getD t "" == emp1) = [df.index.indexOf pos1] := by
    apply filter_eq_singleton_of (huniq emp1 hk1 t ht)
    rw [List.mem_filter, List.mem_range]
    exact ⟨hj1lt, by rw [hval1]; simp⟩
  have hfil2 : (List.range df.index.length).filter
      (fun j => (df.cells.getD j []).getD t "" == emp2) = [df.index.indexOf pos2] := by
    apply filter_eq_singleton_of (huniq emp2 hk2 t ht)
    rw [List.mem_filter, List.mem_range]
    exact ⟨hj2lt, by rw [hval2]; simp⟩
  have hpoint1 : ∀ j ∈ List.range df.index.length,
      (((dfSetCell (dfSetCell df pos1 t emp2) pos2 t emp1).cells.getD j []).getD
        t "" == emp1) = (j == df.index.indexOf pos2) := by
    intro j hj
    rw [List.mem_range] at hj
    by_cases h2 : j = df.index.indexOf pos2
    · subst h2
      rw [hv2t]
      simp
    · rw [show (j == df.index.indexOf pos2) = false from beq_eq_false_iff_ne.mpr h2]
      by_cases h1 : j = df.index.indexOf pos1
      · subst h1
        rw [hv1t]
        exact beq_eq_false_iff_ne.mpr hee
      · rw [hvother j t h1 h2]
        apply beq_eq_false_iff_ne.mpr
        intro hval
        have hmem : j ∈ [df.index.indexOf pos1] := by
          rw [← hfil1, List.mem_filter, List.mem_range]
          exact ⟨hj, by rw [hval]; simp⟩
        exact h1 (List.mem_singleton.mp hmem)
  have hfil1' : (List.range df.index.length).filter
      (fun j => ((dfSetCell (dfSetCell df pos1 t emp2) pos2 t emp1).cells.getD j []).getD
        t "" == emp1) = [df.index.indexOf pos2] := by
    rw [List.filter_congr hpoint1]
    exact filter_beq_range hj2lt
  have hpoint2 : ∀ j ∈ List.range df.index.length,
      (((dfSetCell (dfSetCell df pos1 t emp2) pos2 t emp1).cells.getD j []).getD
        t "" == emp2) = (j == df.index.indexOf pos1) := by
    intro j hj
    rw [List.mem_range] at hj
    by_cases h1 : j = df.index.indexOf pos1
    · subst h1
      rw [hv1t]
      simp
    · rw [show (j == df.index.indexOf pos1) = false from beq_eq_false_iff_ne.mpr h1]
      by_cases h2 : j = df.index.indexOf pos2
      · subst h2
        rw [hv2t]
        exact beq_eq_false_iff_ne.mpr (fun hh => hee hh.symm)
      · rw [hvother j t h1 h2]
        apply beq_eq_false_iff_ne.mpr
        intro hval
        have hmem : j ∈ [df.index.indexOf pos2] := by
          rw [← hfil2, List.mem_filter, List.mem_range]
          exact ⟨hj, by rw [hval]; simp⟩
        exact h2 (List.mem_singleton.mp hmem)
  have hfil2' : (List.range df.index.length).filter
      (fun j => ((dfSetCell (dfSetCell df pos1 t emp2) pos2 t emp1).cells.getD j []).getD
        t "" == emp2) = [df.index.indexOf pos1] := by
    rw [List.filter_congr hpoint2]
    exact filter_beq_range hj1lt
  have hrect' : ∀ row ∈ (dfSetCell (dfSetCell df pos1 t emp2) pos2 t emp1).cells,
      row.length = (dfSetCell (dfSetCell df pos1 t emp2) pos2 t emp1).columns.length := by
    intro row hrow
    rw [hcols]
    rw [dfSetCell_cells, dfSetCell_cells] at hrow
    have hmid : (df.cells.set (df.index.indexOf pos1)
        ((df.cells.getD (df.index.indexOf pos1) []).set t emp2)).getD
        ((dfSetCell df pos1 t emp2).index.indexOf pos2) [] =
        df.cells.getD (df.index.indexOf pos2) [] := by
      rw [show (dfSetCell df pos1 t emp2).index = df.index from rfl,
        List.getD_eq_getElem?_getD, List.getElem?_set_ne hj12, ← List.getD_eq_getElem?_getD]
    rcases mem_set_elim hrow with hrow | hrow
    · rw [hrow, List.length_set, hmid]
      exact hrect _ (getD_mem (by omega) _)
    · rcases mem_set_elim hrow with hrow | hrow
      · rw [hrow, List.length_set]
        exact hrect _ (getD_mem (by omega) _)
      · exact hrect _ hrow
  have hlen' : (dfSetCell (dfSetCell df pos1 t emp2) pos2 t emp1).cells.length =
      (dfSetCell (dfSetCell df pos1 t emp2) pos2 t emp1).index.length := by
    rw [hidx, hclen, hlen]
  have hkeys : ∀ e ∈ dfKeys (dfSetCell (dfSetCell df pos1 t emp2) pos2 t emp1),
      e ∈ dfKeys df := by
    intro e he
    unfold dfKeys at he
    rw [mem_firstOccurrences, List.mem_filter] at he
    obtain ⟨hflat, hne'⟩ := he
    rw [List.mem_flatten] at hflat
    obtain ⟨row, hrowmem, hrowe⟩ := hflat
    have hrowlen : row.length = df.columns.length := by
      have := hrect' row hrowmem
      rw [hcols] at this
      exact this
    rw [List.mem_iff_getElem] at hrowmem
    obtain ⟨k, hk, hkrow⟩ := hrowmem
    rw [List.mem_iff_getElem] at hrowe
    obtain ⟨i, hi, hie⟩ := hrowe
    have hkc : k < df.cells.length := by rw [← hclen]; exact hk
    have hklen : k < df.index.length := by omega
    have hicols : i < df.columns.length := by omega
    have hval' : ((dfSetCell (dfSetCell df pos1 t emp2) pos2 t emp1).cells.getD
        k []).getD i "" = e := by
      have h1 : ((dfSetCell (dfSetCell df pos1 t emp2) pos2 t emp1).cells.getD k []) =
          row := by
        rw [List.getD_eq_getElem?_getD, List.getElem?_eq_getElem hk]
        exact hkrow
      rw [h1]
      rw [List.getD_eq_getElem?_getD, List.getElem?_eq_getElem hi]
      exact hie
    have hne'' : e ≠ "" := by simpa using hne'
    by_cases hk1c : k = df.index.indexOf pos1
    · by_cases hit : t = i
      · subst hk1c hit
        rw [hv1t] at hval'
        rw [← hval']
        exact hk2
      · subst hk1c
        rw [hv1ne i (fun hh => hit hh.symm)] at hval'
        rw [← hval']
        exact val_mem_dfKeys hlen hrect hj1lt hicols (by rw [hval']; exact hne'')
    · by_cases hk2c : k = df.index.indexOf pos2
      · by_cases hit : t = i
        · subst hk2c hit
          rw [hv2t] at hval'
          rw [← hval']
          exact hk1
        · subst hk2c
          rw [hv2ne i (fun hh => hit hh.symm)] at hval'
          rw [← hval']
          exact val_mem_dfKeys hlen hrect hj2lt hicols (by rw [hval']; exact hne'')
      · rw [hvother k i hk1c hk2c] at hval'
        rw [← hval']
        exact val_mem_dfKeys hlen hrect hklen hicols (by rw [hval']; exact hne'')
  have hcongrcol : ∀ (i : Nat), i ≠ t →
      ∀ j, j < df.index.length →
      (((dfSetCell (dfSetCell df pos1 t emp2) pos2 t emp1).cells.getD j []).getD i "") =
        ((df.cells.getD j []).getD i "") := by
    intro i hit j hj
    by_cases h1 : j = df.index.indexOf pos1
    · subst h1
      exact hv1ne i hit
    · by_cases h2 : j = df.index.indexOf pos2
      · subst h2
        exact hv2ne i hit
      · exact hvother j i h1 h2
  have huniq' : ∀ e ∈ dfKeys (dfSetCell (dfSetCell df pos1 t emp2) pos2 t emp1),
      ∀ i, i < df.columns.length →
      ((List.range df.index.length).filter
        (fun j => ((dfSetCell (dfSetCell df pos1 t emp2) pos2 t emp1).cells.getD
          j []).getD i "" == e)).length ≤ 1 := by
    intro e he i hi
    by_cases hit : t = i
    · subst hit
      by_cases hemp1 : emp1 = e
      · subst hemp1
        rw [hfil1']
        simp
      · by_cases hemp2 : emp2 = e
        · subst hemp2
          rw [hfil2']
          simp
        · have hpt : ∀ j ∈ List.range df.index.length,
              (((dfSetCell (dfSetCell df pos1 t emp2) pos2 t emp1).cells.getD
                j []).getD t "" == e) = ((df.cells.getD j []).getD t "" == e) := by
            intro j hj
            rw [List.mem_range] at hj
            by_cases h1 : j = df.index.indexOf pos1
            · subst h1
              rw [hv1t, hval1, beq_eq_false_iff_ne.mpr hemp2,
                beq_eq_false_iff_ne.mpr hemp1]
            · by_cases h2 : j = df.index.indexOf pos2
              · subst h2
                rw [hv2t, hval2, beq_eq_false_iff_ne.mpr hemp1,
                  beq_eq_false_iff_ne.mpr hemp2]
              · rw [hvother j t h1 h2]
          rw [List.filter_congr hpt]
          exact huniq e (hkeys e he) t ht
    · have hpt2 : ∀ j ∈ List.range df.index.length,
          (((dfSetCell (dfSetCell df pos1 t emp2) pos2 t emp1).cells.getD
            j []).getD i "" == e) = ((df.cells.getD j []).getD i "" == e) := by
        intro j hj
        rw [List.mem_range] at hj
        rw [hcongrcol i (fun hh => hit hh.symm) j hj]
      rw [List.filter_congr hpt2]
      exact huniq e (hkeys e he) i hi
  refine ⟨?_, ?_⟩
  · unfold WFdf
    simp only [Bool.and_eq_true, beq_iff_eq, List.all_eq_true, decide_eq_true_eq,
      List.mem_range]
    refine ⟨⟨⟨hlen', hrect'⟩, ?_⟩, by rw [hidx]; exact hnodup⟩
    intro e he i hi
    rw [hcols] at hi
    rw [hidx]
    exact huniq' e he i hi
  · intro e
    rw [mapGet_buildMap hlen' hrect' e, hcols]
    by_cases hemp1 : emp1 = e
    · subst hemp1
      rw [mapGet_mapUpdatePos_ne (fun hh => hee hh.symm) t pos1,
        mapGet_mapUpdatePos_self, hI emp1, mapGet_buildMap hlen hrect,
        List.map_flatMap]
      apply List.flatMap_congr
      intro i hi
      rw [List.mem_range] at hi
      by_cases hit : t = i
      · subst hit
        rw [colEntries_eq he1 t, hfil1, colEntries_eq he1 t, hidx, hfil1']
        simp [List.getElem?_indexOf hp1, List.getElem?_indexOf hp2]
      · rw [colEntries_congr hidx (hcongrcol i (fun hh => hit hh.symm))]
        conv_rhs => rw [← List.map_id (colEntries df emp1 i)]
        apply List.map_congr_left
        intro x hx
        have hxf := colEntries_fst x hx
        have hxt : (x.1 == t) = false :=
          beq_eq_false_iff_ne.mpr (by rw [hxf]; exact fun hh => hit hh.symm)
        simp [hxt]
    · by_cases hemp2 : emp2 = e
      · subst hemp2
        rw [mapGet_mapUpdatePos_self, mapGet_mapUpdatePos_ne hee t pos2,
          hI emp2, mapGet_buildMap hlen hrect, List.map_flatMap]
        apply List.flatMap_congr
        intro i hi
        rw [List.mem_range] at hi
        by_cases hit : t = i
        · subst hit
          rw [colEntries_eq he2 t, hfil2, colEntries_eq he2 t, hidx, hfil2']
          simp [List.getElem?_indexOf hp1, List.getElem?_indexOf hp2]
        · rw [colEntries_congr hidx (hcongrcol i (fun hh => hit hh.symm))]
          conv_rhs => rw [← List.map_id (colEntries df emp2 i)]
          apply List.map_congr_left
          intro x hx
          have hxf := colEntries_fst x hx
          have hxt : (x.1 == t) = false :=
            beq_eq_false_iff_ne.mpr (by rw [hxf]; exact fun hh => hit hh.symm)
          simp [hxt]
      · rw [mapGet_mapUpdatePos_ne (fun hh => hemp2 hh.symm) t pos1,
          mapGet_mapUpdatePos_ne (fun hh => hemp1 hh.symm) t pos2,
          hI e, mapGet_buildMap hlen hrect]
        apply List.flatMap_congr
        intro i hi
        rw [List.mem_range] at hi
        by_cases hit : t = i
        · subst hit
          by_cases hestr : e = ""
          · subst hestr
            rw [colEntries_empty_name, colEntries_empty_name]
          · rw [colEntries_eq hestr t, colEntries_eq hestr t, hidx]
            congr 1
            apply List.filter_congr
            intro j hj
            rw [List.mem_range] at hj
            by_cases h1 : j = df.index.indexOf pos1
            · subst h1
              rw [hv1t, hval1, beq_eq_false_iff_ne.mpr hemp2,
                beq_eq_false_iff_ne.mpr hemp1]
            · by_cases h2 : j = df.index.indexOf pos2
              · subst h2
                rw [hv2t, hval2, beq_eq_false_iff_ne.mpr hemp1,
                  beq_eq_false_iff_ne.mpr hemp2]
              · rw [hvother j t h1 h2]
        · rw [colEntries_congr hidx (hcongrcol i (fun hh => hit hh.symm))]

theorem isRepetitive_congr {m1 m2 : SwapMap} (h : ∀ e, mapGet m1 e = mapGet m2 e)
    (e p : String) (t : Nat) : isRepetitive m1 e p t = isRepetitive m2 e p t := by
  unfold isRepetitive
  rw [h e]

theorem check_employee_validity_congr {m1 m2 : SwapMap}
    (h : ∀ e, mapGet m1 e = mapGet m2 e) (df : Df) (e p : String) (t : Nat) :
    check_employee_validity df m1 e p t = check_employee_validity df m2 e p t := by
  unfold check_employee_validity
  rw [h e]

theorem is_swap_safe_congr {m1 m2 : SwapMap} (h : ∀ e, mapGet m1 e = mapGet m2 e)
    (df : Df) (t : Nat) (e1 e2 p1 p2 : String) :
    is_swap_safe df t e1 e2 p1 p2 m1 = is_swap_safe df t e1 e2 p1 p2 m2 := by
  unfold is_swap_safe
  rw [check_employee_validity_congr h, check_employee_validity_congr h]

theorem findSome?_congr {α β : Type} {f g : α → Option β} :
    ∀ {l : List α}, (∀ a ∈ l, f a = g a) → l.findSome? f = l.findSome? g := by
  intro l
  induction l with
  | nil => intro _; rfl
  | cons x xs ih =>
    intro h
    rw [List.findSome?_cons, List.findSome?_cons, h x (List.mem_cons_self x xs)]
    cases g x with
    | some v => rfl
    | none => exact ih (fun a ha => h a (List.mem_cons_of_mem x ha))

theorem scanSwap_congr (df : Df) {m1 m2 : SwapMap}
    (h : ∀ e, mapGet m1 e = mapGet m2 e) : scanSwap df m1 = scanSwap df m2 := by
  unfold scanSwap
  apply findSome?_congr
  intro t ht
  apply findSome?_congr
  intro pos hpos
  simp only [isRepetitive_congr h, is_swap_safe_congr h]

theorem sweepStep_count (x : Df × SwapMap × Nat) :
    (sweepStep x).2.2 = x.2.2 ∨ (sweepStep x).2.2 = x.2.2 + 1 := by
  obtain ⟨df, m, n⟩ := x
  cases hs : scanSwap df m with
  | none =>
    left
    unfold sweepStep
    dsimp only
    rw [hs]
  | some s =>
    right
    unfold sweepStep
    dsimp only
    rw [hs]

theorem sweepStep_fix_of_count {x : Df × SwapMap × Nat}
    (h : (sweepStep x).2.2 = x.2.2) : sweepStep x = x := by
  obtain ⟨df, m, n⟩ := x
  cases hs : scanSwap df m with
  | none =>
    unfold sweepStep
    dsimp only
    rw [hs]
  | some s =>
    exfalso
    unfold sweepStep at h
    dsimp only at h
    rw [hs] at h
    dsimp only at h
    omega

theorem sweepStep_none {x : Df × SwapMap × Nat} (h : sweepStep x = x) :
    scanSwap x.1 x.2.1 = none := by
  obtain ⟨df, m, n⟩ := x
  cases hs : scanSwap df m with
  | none => rfl
  | some s =>
    exfalso
    unfold sweepStep at h
    dsimp only at h
    rw [hs] at h
    have := congrArg (fun y : Df × SwapMap × Nat => y.2.2) h
    dsimp only at this
    omega

theorem sweepStep_preserves (x : Df × SwapMap × Nat)
    (hWF : WFdf x.1 = true) (hI : ∀ e, mapGet x.2.1 e = mapGet (buildMap x.1) e) :
    WFdf (sweepStep x).1 = true ∧
    (∀ e, mapGet (sweepStep x).2.1 e = mapGet (buildMap (sweepStep x).1) e) := by
  obtain ⟨df, m, n⟩ := x
  cases hs : scanSwap df m with
  | none =>
    unfold sweepStep
    dsimp only
    rw [hs]
    exact ⟨hWF, hI⟩
  | some s =>
    obtain ⟨_, _, _, _, _, hb6, hbe1, hbe2, hbee, hcell1, hcell2, _, _, hp1, hp2, htt⟩ :=
      scanSwap_found df m s hs
    have hsp := swap_preserves df m s.pos1 s.pos2 s.emp1 s.emp2 s.time_idx hWF
      hp1 hp2 (fun hh => hb6 hh.symm) htt hcell1 hcell2 hbe1 hbe2 hbee hI
    unfold sweepStep
    dsimp only
    rw [hs]
    exact ⟨hsp.1, hsp.2⟩

theorem iterSweep_fix {x : Df × SwapMap × Nat} (h : sweepStep x = x) :
    ∀ k, iterSweep k x = x := by
  intro k
  induction k with
  | zero => rfl
  | succ j ih =>
    show sweepStep (iterSweep j x) = x
    rw [ih, h]

theorem iterSweep_preserves (x : Df × SwapMap × Nat)
    (hWF : WFdf x.1 = true) (hI : ∀ e, mapGet x.2.1 e = mapGet (buildMap x.1) e) :
    ∀ k, WFdf (iterSweep k x).1 = true ∧
      (∀ e, mapGet (iterSweep k x).2.1 e = mapGet (buildMap (iterSweep k x).1) e) := by
  intro k
  induction k with
  | zero => exact ⟨hWF, hI⟩
  | succ j ih => exact sweepStep_preserves (iterSweep j x) ih.1 ih.2

theorem fix_of_iterSweep_lt :
    ∀ (k : Nat) (x : Df × SwapMap × Nat), (iterSweep k x).2.2 < x.2.2 + k →
      sweepStep (iterSweep k x) = iterSweep k x := by
  intro k
  induction k with
  | zero =>
    intro x h
    have h0 : iterSweep 0 x = x := rfl
    rw [h0] at h
    omega
  | succ j ih =>
    intro x h
    rcases sweepStep_count (iterSweep j x) with hc | hc
    · have hfix : sweepStep (iterSweep j x) = iterSweep j x := sweepStep_fix_of_count hc
      show sweepStep (sweepStep (iterSweep j x)) = sweepStep (iterSweep j x)
      rw [hfix]
      exact hfix
    · have hlt : (iterSweep j x).2.2 < x.2.2 + j := by
        have hs : (iterSweep (j + 1) x).2.2 = (sweepStep (iterSweep j x)).2.2 := rfl
        omega
      have hfix := ih x hlt
      have : (sweepStep (iterSweep j x)).2.2 = (iterSweep j x).2.2 := by rw [hfix]
      omega

/-- C7 (amended): on a well-formed grid — rectangular, distinct row labels,
each nonempty name in at most one cell per column — if the five-iteration
sweep performs fewer than five swaps, a second run of the pass on its
output performs zero swaps.  (With five swaps the pass can stop mid-work
and a second run swaps again, so the original unconditional idempotence
fails; below the cap the incremental `employee_schedule_map` update stays
consistent with rebuilding the map from the swapped grid, the final scan
finds nothing, and the rebuilt-map scan of the second run finds nothing
either.) -/
theorem iterSweep_five (x : Df × SwapMap × Nat) :
    iterSweep 5 x = sweepStep (sweepStep (sweepStep (sweepStep (sweepStep x)))) := rfl

theorem runDiversePass_eq_iter (df : Df) :
    runDiversePass df = ((iterSweep 5 (df, buildMap df, 0)).1,
      (iterSweep 5 (df, buildMap df, 0)).2.2) := by
  rw [iterSweep_five]
  rfl

/-- C7 (amended): on a well-formed grid — rectangular, distinct row labels,
each nonempty name in at most one cell per column — if the five-iteration
sweep performs fewer than five swaps, a second run of the pass on its
output performs zero swaps.  (With five swaps the pass can stop mid-work
and a second run swaps again, so the original unconditional idempotence
fails; below the cap the incremental `employee_schedule_map` update stays
consistent with rebuilding the map from the swapped grid, the final scan
finds nothing, and the rebuilt-map scan of the second run finds nothing
either.) -/
theorem c7_idempotent_below_cap (df : Df) (hWF : WFdf df = true)
    (hlt : (runDiversePass df).2 < 5) :
    (runDiversePass (runDiversePass df).1).2 = 0 := by
  rw [runDiversePass_eq_iter] at hlt
  dsimp only at hlt
  have hlt' : (iterSweep 5 (df, buildMap df, 0)).2.2 <
      (df, buildMap df, 0).2.2 + 5 := by
    dsimp only
    omega
  have hfix5 := fix_of_iterSweep_lt 5 (df, buildMap df, 0) hlt'
  have hinv := iterSweep_preserves (df, buildMap df, 0) hWF (fun e => rfl) 5
  have hnone := sweepStep_none hfix5
  have hnone' : scanSwap (iterSweep 5 (df, buildMap df, 0)).1
      (buildMap (iterSweep 5 (df, buildMap df, 0)).1) = none := by
    rw [← scanSwap_congr _ hinv.2]
    exact hnone
  have hid : sweepStep ((iterSweep 5 (df, buildMap df, 0)).1,
      buildMap (iterSweep 5 (df, buildMap df, 0)).1, 0) =
      ((iterSweep 5 (df, buildMap df, 0)).1,
       buildMap (iterSweep 5 (df, buildMap df, 0)).1, 0) := by
    unfold sweepStep
    dsimp only
    rw [hnone']
  rw [runDiversePass_eq_iter, runDiversePass_eq_iter]
  dsimp only
  rw [iterSweep_fix hid 5]

theorem c7_idempotent_below_cap_witness :
    WFdf dfCalm = true ∧ (runDiversePass dfCalm).2 < 5 ∧
    (runDiversePass (runDiversePass dfCalm).1).2 = 0 :=
  ⟨by decide, by decide, c7_idempotent_below_cap dfCalm (by decide) (by decide)⟩

end Scheduler
